import Mathlib

/-!
Verification development for the resumable streamable-HTTP MCP server
(`src/server.py`).

The Python module keeps, per logical stream, a bounded deque of
`EventEntry` records together with a global `event_id -> EventEntry`
index (`InMemoryEventStore`), and an ASGI router
(`handle_streamable_http`) that dispatches requests to per-session
transports.  Python `dict`s are modelled by insertion-ordered
association lists (`dlookup` / `dinsert` / `derase`), the bounded
`deque` by a plain list whose head is the oldest element, and the
`uuid4()` generator by a monotone counter handing out fresh
identifiers (the code relies on uuid collision-freedom; the counter
is the standard shallow embedding of a fresh-id supply).
-/

set_option autoImplicit false
set_option linter.unusedSectionVars false

namespace StreamableMCP

/-- Python `dict` lookup `d[k]` / `d.get(k)`, over an insertion-ordered
association list. -/
def dlookup {α β : Type} [DecidableEq α] : List (α × β) → α → Option β
  | [], _ => none
  | (k, v) :: d, a => if k = a then some v else dlookup d a

/-- Python `dict` assignment `d[k] = v`: update in place when the key
exists, otherwise append at the end (insertion order). -/
def dinsert {α β : Type} [DecidableEq α] : List (α × β) → α → β → List (α × β)
  | [], a, b => [(a, b)]
  | (k, v) :: d, a, b => if k = a then (a, b) :: d else (k, v) :: dinsert d a b

/-- Python `dict.pop(k, None)`: remove the binding of `k` when present,
do nothing otherwise. -/
def derase {α β : Type} [DecidableEq α] : List (α × β) → α → List (α × β)
  | [], _ => []
  | (k, v) :: d, a => if k = a then d else (k, v) :: derase d a

/-- The keys of an association list, in order. -/
def dkeys {α β : Type} (d : List (α × β)) : List α := d.map Prod.fst

section DictLemmas

variable {α β : Type} [DecidableEq α]

@[simp] theorem dkeys_nil : dkeys ([] : List (α × β)) = [] := rfl

@[simp] theorem dkeys_cons (k : α) (v : β) (d : List (α × β)) :
    dkeys ((k, v) :: d) = k :: dkeys d := rfl

@[simp] theorem dkeys_append (d d' : List (α × β)) :
    dkeys (d ++ d') = dkeys d ++ dkeys d' := by
  simp [dkeys]

@[simp] theorem dlookup_nil (a : α) : dlookup ([] : List (α × β)) a = none := rfl

@[simp] theorem dlookup_cons (k : α) (v : β) (d : List (α × β)) (a : α) :
    dlookup ((k, v) :: d) a = if k = a then some v else dlookup d a := rfl

@[simp] theorem dlookup_dinsert_self (d : List (α × β)) (k : α) (v : β) :
    dlookup (dinsert d k v) k = some v := by
  induction d with
  | nil => simp [dinsert]
  | cons p d ih =>
    obtain ⟨k', v'⟩ := p
    by_cases h : k' = k
    · simp [dinsert, h]
    · simp [dinsert, h, ih]

theorem dlookup_dinsert_ne (d : List (α × β)) (k : α) (v : β) (a : α) (h : k ≠ a) :
    dlookup (dinsert d k v) a = dlookup d a := by
  induction d with
  | nil => simp [dinsert, h]
  | cons p d ih =>
    obtain ⟨k', v'⟩ := p
    by_cases h' : k' = k
    · subst h'
      simp [dinsert, h]
    · simp only [dinsert, if_neg h', dlookup]
      by_cases hk : k' = a
      · simp [hk]
      · simp [hk, ih]

theorem dlookup_derase_ne (d : List (α × β)) (a k : α) (h : a ≠ k) :
    dlookup (derase d a) k = dlookup d k := by
  induction d with
  | nil => simp [derase]
  | cons p d ih =>
    obtain ⟨k', v'⟩ := p
    by_cases h' : k' = a
    · subst h'
      simp [derase, dlookup, h]
    · simp only [derase, if_neg h', dlookup]
      by_cases hk : k' = k
      · simp [hk]
      · simp [hk, ih]

theorem dlookup_eq_none_iff (d : List (α × β)) (a : α) :
    dlookup d a = none ↔ a ∉ dkeys d := by
  induction d with
  | nil => simp
  | cons p d ih =>
    obtain ⟨k, v⟩ := p
    by_cases h : k = a
    · subst h
      simp
    · simp only [dlookup, if_neg h, dkeys_cons, List.mem_cons, ih]
      constructor
      · intro hn hc
        rcases hc with hc | hc
        · exact h hc.symm
        · exact hn hc
      · intro hn
        exact fun hc => hn (Or.inr hc)

theorem mem_dkeys (d : List (α × β)) (a : α) :
    a ∈ dkeys d ↔ ∃ p ∈ d, p.1 = a := by
  simp [dkeys, List.mem_map]

theorem dlookup_mem (d : List (α × β)) (a : α) (v : β)
    (h : dlookup d a = some v) : (a, v) ∈ d := by
  induction d with
  | nil => simp at h
  | cons p d ih =>
    obtain ⟨k, v'⟩ := p
    by_cases hk : k = a
    · subst hk
      simp [dlookup] at h
      simp [h]
    · simp only [dlookup, if_neg hk] at h
      exact List.mem_cons_of_mem _ (ih h)

theorem dlookup_isSome_iff (d : List (α × β)) (a : α) :
    (dlookup d a).isSome ↔ a ∈ dkeys d := by
  cases hl : dlookup d a with
  | none =>
    simp only [Option.isSome_none, Bool.false_eq_true, false_iff]
    exact (dlookup_eq_none_iff d a).1 hl
  | some v =>
    simp only [Option.isSome_some, true_iff]
    exact (mem_dkeys d a).2 ⟨(a, v), dlookup_mem d a v hl, rfl⟩

theorem dlookup_of_mem_nodup (d : List (α × β)) (a : α) (v : β)
    (hnd : (dkeys d).Nodup) (h : (a, v) ∈ d) : dlookup d a = some v := by
  induction d with
  | nil => simp at h
  | cons p d ih =>
    obtain ⟨k, v'⟩ := p
    rw [dkeys_cons, List.nodup_cons] at hnd
    rcases List.mem_cons.1 h with h' | h'
    · have h1 : a = k := congrArg Prod.fst h'
      have h2 : v = v' := congrArg Prod.snd h'
      subst h1
      subst h2
      simp [dlookup]
    · have hka : k ≠ a := by
        intro hc
        subst hc
        exact hnd.1 ((mem_dkeys d k).2 ⟨(k, v), h', rfl⟩)
      simp only [dlookup, if_neg hka]
      exact ih hnd.2 h'

theorem dinsert_eq_append_of_not_mem (d : List (α × β)) (k : α) (v : β)
    (h : k ∉ dkeys d) : dinsert d k v = d ++ [(k, v)] := by
  induction d with
  | nil => simp [dinsert]
  | cons p d ih =>
    obtain ⟨k', v'⟩ := p
    rw [dkeys_cons, List.mem_cons] at h
    push_neg at h
    simp only [dinsert, if_neg (fun hc : k' = k => h.1 hc.symm), List.cons_append,
      List.cons.injEq, true_and]
    exact ih h.2

theorem dkeys_dinsert (d : List (α × β)) (k : α) (v : β) :
    dkeys (dinsert d k v) = if k ∈ dkeys d then dkeys d else dkeys d ++ [k] := by
  induction d with
  | nil => simp [dinsert]
  | cons p d ih =>
    obtain ⟨k', v'⟩ := p
    by_cases hk : k' = k
    · subst hk
      simp [dinsert]
    · simp only [dinsert, if_neg hk, dkeys_cons, ih]
      by_cases hm : k ∈ dkeys d
      · simp [hm, List.mem_cons, fun hc : k = k' => hk hc.symm]
      · have : ¬ k ∈ (k' : α) :: dkeys d := by
          rw [List.mem_cons]
          push_neg
          exact ⟨fun hc => hk hc.symm, hm⟩
        simp [hm, this]

theorem dkeys_dinsert_nodup (d : List (α × β)) (k : α) (v : β)
    (h : (dkeys d).Nodup) : (dkeys (dinsert d k v)).Nodup := by
  rw [dkeys_dinsert]
  by_cases hm : k ∈ dkeys d
  · simp [hm, h]
  · simp only [if_neg hm]
    exact List.Nodup.append h (List.nodup_singleton k)
      (by simpa [List.disjoint_singleton] using hm)

theorem dkeys_derase_sublist (d : List (α × β)) (a : α) :
    (dkeys (derase d a)).Sublist (dkeys d) := by
  induction d with
  | nil => simp [derase]
  | cons p d ih =>
    obtain ⟨k, v⟩ := p
    by_cases hk : k = a
    · simp only [derase, if_pos hk, dkeys_cons]
      exact List.sublist_cons_self _ _
    · simp only [derase, if_neg hk, dkeys_cons]
      exact ih.cons₂ _

theorem dkeys_derase_nodup (d : List (α × β)) (a : α)
    (h : (dkeys d).Nodup) : (dkeys (derase d a)).Nodup :=
  (dkeys_derase_sublist d a).nodup h

theorem dlookup_derase_self (d : List (α × β)) (a : α)
    (h : (dkeys d).Nodup) : dlookup (derase d a) a = none := by
  induction d with
  | nil => simp [derase]
  | cons p d ih =>
    obtain ⟨k, v⟩ := p
    rw [dkeys_cons, List.nodup_cons] at h
    by_cases hk : k = a
    · subst hk
      simp only [derase, if_pos rfl]
      exact (dlookup_eq_none_iff d k).2 h.1
    · simp only [derase, if_neg hk, dlookup, if_neg hk]
      exact ih h.2

theorem mem_derase (d : List (α × β)) (a : α) (p : α × β)
    (h : p ∈ derase d a) : p ∈ d := by
  induction d with
  | nil => simp [derase] at h
  | cons q d ih =>
    obtain ⟨k, v⟩ := q
    by_cases hk : k = a
    · simp only [derase, if_pos hk] at h
      exact List.mem_cons_of_mem _ h
    · simp only [derase, if_neg hk] at h
      rcases List.mem_cons.1 h with h' | h'
      · simp [h']
      · exact List.mem_cons_of_mem _ (ih h')

theorem mem_derase_key_ne (d : List (α × β)) (a : α) (p : α × β)
    (hnd : (dkeys d).Nodup) (h : p ∈ derase d a) : p.1 ≠ a := by
  induction d with
  | nil => simp [derase] at h
  | cons q d ih =>
    obtain ⟨k, v⟩ := q
    rw [dkeys_cons, List.nodup_cons] at hnd
    by_cases hk : k = a
    · subst hk
      simp only [derase, if_pos rfl] at h
      intro hc
      exact hnd.1 ((mem_dkeys d k).2 ⟨p, h, hc⟩)
    · simp only [derase, if_neg hk] at h
      rcases List.mem_cons.1 h with h' | h'
      · subst h'
        exact hk
      · exact ih hnd.2 h'

theorem mem_dinsert (d : List (α × β)) (k : α) (v : β) (p : α × β)
    (h : p ∈ dinsert d k v) : p = (k, v) ∨ p ∈ d := by
  induction d with
  | nil =>
    simp only [dinsert, List.mem_singleton] at h
    exact Or.inl h
  | cons q d ih =>
    obtain ⟨k', v'⟩ := q
    by_cases hk : k' = k
    · subst hk
      simp only [dinsert, if_pos rfl] at h
      rcases List.mem_cons.1 h with h' | h'
      · exact Or.inl h'
      · exact Or.inr (List.mem_cons_of_mem _ h')
    · simp only [dinsert, if_neg hk] at h
      rcases List.mem_cons.1 h with h' | h'
      · exact Or.inr (by simp [h'])
      · rcases ih h' with h'' | h''
        · exact Or.inl h''
        · exact Or.inr (List.mem_cons_of_mem _ h'')

theorem dlookup_append_left (d d' : List (α × β)) (a : α)
    (h : a ∈ dkeys d) : dlookup (d ++ d') a = dlookup d a := by
  induction d with
  | nil => simp at h
  | cons p d ih =>
    obtain ⟨k, v⟩ := p
    by_cases hk : k = a
    · simp [dlookup, hk]
    · rw [dkeys_cons, List.mem_cons] at h
      rcases h with h | h
      · exact absurd h.symm hk
      · simp only [List.cons_append, dlookup, if_neg hk]
        exact ih h

theorem dlookup_append_right (d d' : List (α × β)) (a : α)
    (h : a ∉ dkeys d) : dlookup (d ++ d') a = dlookup d' a := by
  induction d with
  | nil => simp
  | cons p d ih =>
    obtain ⟨k, v⟩ := p
    rw [dkeys_cons, List.mem_cons] at h
    push_neg at h
    simp only [List.cons_append, dlookup, if_neg (fun hc : k = a => h.1 hc.symm)]
    exact ih h.2

end DictLemmas

/-! ## The event store (`server.py` lines 41-121)

`EventId` is the value of `str(uuid4())`: an opaque, globally fresh
token.  We model the uuid supply by a counter `nextId` carried in the
store, so the id handed out by a call of `store_event` is `nextId` and
the counter then advances; `JSONRPCMessage` payloads are opaque and
modelled as strings. -/

abbrev StreamId := String
abbrev EventId := Nat
abbrev JSONRPCMessage := String

/-- The `EventEntry` dataclass: one event of the store. -/
structure EventEntry where
  event_id : EventId
  stream_id : StreamId
  message : JSONRPCMessage
deriving DecidableEq, Repr

/-- An `EventMessage(message, event_id)` as handed to the replay callback. -/
abbrev EventMessage := JSONRPCMessage × EventId

/-- The `InMemoryEventStore`: per-stream bounded deques plus the global
`event_id -> EventEntry` index.  A deque is a list whose head is the
oldest entry. -/
structure InMemoryEventStore where
  max_events_per_stream : Nat
  streams : List (StreamId × List EventEntry)
  event_index : List (EventId × EventEntry)
  nextId : Nat
deriving DecidableEq, Repr

/-- Constructor `InMemoryEventStore(max_events_per_stream)`: empty store whose
uuid supply starts at `nid`. -/
def initStore (cap nid : Nat) : InMemoryEventStore :=
  { max_events_per_stream := cap, streams := [], event_index := [], nextId := nid }

/-- The deque of a stream, `self.streams.get(sid, deque())`. -/
def dequeOf (s : InMemoryEventStore) (sid : StreamId) : List EventEntry :=
  (dlookup s.streams sid).getD []

/-- Method `store_event(stream_id, message)` (`server.py` lines 73-96).
Returns `Except.error` exactly when the Python code would raise: with
capacity `0` the eviction branch evaluates `self.streams[stream_id][0]`
on an empty deque and raises `IndexError`.  Appending to a deque that
is at its `maxlen` drops the oldest (leftmost) element. -/
def store_event (s : InMemoryEventStore) (stream_id : StreamId)
    (message : JSONRPCMessage) : Except String (EventId × InMemoryEventStore) :=
  let event_id := s.nextId
  let event_entry : EventEntry :=
    { event_id := event_id, stream_id := stream_id, message := message }
  let streams0 :=
    match dlookup s.streams stream_id with
    | some _ => s.streams
    | none => dinsert s.streams stream_id []
  let dq := (dlookup streams0 stream_id).getD []
  if dq.length = s.max_events_per_stream then
    match dq with
    | [] => .error "IndexError: deque index out of range"
    | oldest :: rest =>
      let event_index1 := derase s.event_index oldest.event_id
      .ok (event_id,
        { max_events_per_stream := s.max_events_per_stream,
          streams := dinsert streams0 stream_id (rest ++ [event_entry]),
          event_index := dinsert event_index1 event_id event_entry,
          nextId := s.nextId + 1 })
  else
    .ok (event_id,
      { max_events_per_stream := s.max_events_per_stream,
        streams := dinsert streams0 stream_id (dq ++ [event_entry]),
        event_index := dinsert s.event_index event_id event_entry,
        nextId := s.nextId + 1 })

/-- The `for event in stream_events` loop of `replay_events_after` with
its `found_last` flag: collects the callback invocations in order. -/
def replayScan (last_event_id : EventId) :
    List EventEntry → Bool → List EventMessage
  | [], _ => []
  | e :: es, found =>
    if found then
      (e.message, e.event_id) :: replayScan last_event_id es true
    else if e.event_id = last_event_id then
      replayScan last_event_id es true
    else
      replayScan last_event_id es false

/-- Method `replay_events_after(last_event_id, send_callback)`
(`server.py` lines 98-121).  The result is the (unchanged) store, the
returned `StreamId | None`, and the list of `EventMessage`s passed to
`send_callback`, in call order. -/
def replay_events_after (s : InMemoryEventStore) (last_event_id : EventId) :
    InMemoryEventStore × Option StreamId × List EventMessage :=
  match dlookup s.event_index last_event_id with
  | none => (s, none, [])
  | some last_event =>
    let stream_events := (dlookup s.streams last_event.stream_id).getD []
    (s, some last_event.stream_id, replayScan last_event_id stream_events false)

example :
    store_event (initStore 2 0) "S" "a" =
      .ok (0, { max_events_per_stream := 2,
                streams := [("S", [{ event_id := 0, stream_id := "S", message := "a" }])],
                event_index := [(0, { event_id := 0, stream_id := "S", message := "a" })],
                nextId := 1 }) := by
  rfl

/-! ## Canonical single-stream runs

Storing a list of messages on one stream from an empty store produces
a store of a canonical shape: the deque keeps the most recent
`max_events_per_stream` entries and the index holds exactly the kept
entries. -/

/-- The entries produced by storing `msgs` on `sid` while the uuid
counter runs from `nid`. -/
def mkEntries (sid : StreamId) : Nat → List JSONRPCMessage → List EventEntry
  | _, [] => []
  | nid, m :: ms =>
    { event_id := nid, stream_id := sid, message := m } :: mkEntries sid (nid + 1) ms

/-- An entry as it appears in the event index. -/
def entryKeyed (e : EventEntry) : EventId × EventEntry := (e.event_id, e)

/-- The store reached from `initStore cap nid0` by storing `msgs` on
stream `sid`: the deque retains the last `cap` entries, and the index
holds exactly the retained entries. -/
def canonStore (cap : Nat) (sid : StreamId) (nid0 : Nat)
    (msgs : List JSONRPCMessage) : InMemoryEventStore :=
  let keep := (mkEntries sid nid0 msgs).drop (msgs.length - cap)
  { max_events_per_stream := cap,
    streams := if msgs.length = 0 then [] else [(sid, keep)],
    event_index := keep.map entryKeyed,
    nextId := nid0 + msgs.length }

/-- A sequence of `store_event` calls on one stream, collecting the
returned event ids; stops at the first raised exception. -/
def storeSeq (s : InMemoryEventStore) (sid : StreamId) :
    List JSONRPCMessage → Except String (List EventId × InMemoryEventStore)
  | [] => .ok ([], s)
  | m :: ms =>
    match store_event s sid m with
    | .error e => .error e
    | .ok (eid, s1) =>
      match storeSeq s1 sid ms with
      | .error e => .error e
      | .ok (eids, s2) => .ok (eid :: eids, s2)

@[simp] theorem mkEntries_nil (sid : StreamId) (nid : Nat) :
    mkEntries sid nid [] = [] := rfl

@[simp] theorem mkEntries_cons (sid : StreamId) (nid : Nat)
    (m : JSONRPCMessage) (ms : List JSONRPCMessage) :
    mkEntries sid nid (m :: ms) =
      { event_id := nid, stream_id := sid, message := m } :: mkEntries sid (nid + 1) ms := rfl

@[simp] theorem mkEntries_length (sid : StreamId) (nid : Nat)
    (ms : List JSONRPCMessage) : (mkEntries sid nid ms).length = ms.length := by
  induction ms generalizing nid with
  | nil => rfl
  | cons m ms ih => simp [ih]

theorem mkEntries_append (sid : StreamId) (nid : Nat)
    (ms ms' : List JSONRPCMessage) :
    mkEntries sid nid (ms ++ ms') =
      mkEntries sid nid ms ++ mkEntries sid (nid + ms.length) ms' := by
  induction ms generalizing nid with
  | nil => simp
  | cons m ms ih =>
    simp [ih, Nat.add_assoc, Nat.add_comm 1 ms.length]

theorem mem_mkEntries (sid : StreamId) (nid : Nat) (ms : List JSONRPCMessage)
    (e : EventEntry) (h : e ∈ mkEntries sid nid ms) :
    nid ≤ e.event_id ∧ e.event_id < nid + ms.length ∧ e.stream_id = sid := by
  induction ms generalizing nid with
  | nil => simp at h
  | cons m ms ih =>
    rw [mkEntries_cons] at h
    rcases List.mem_cons.1 h with h' | h'
    · subst h'
      simp
    · obtain ⟨h1, h2, h3⟩ := ih (nid + 1) h'
      refine ⟨Nat.le_of_succ_le h1, ?_, h3⟩
      have harith : nid + 1 + ms.length = nid + (m :: ms).length := by
        simp [List.length_cons, Nat.add_assoc, Nat.add_comm 1 ms.length]
      exact harith ▸ h2

theorem mkEntries_map_id (sid : StreamId) (nid : Nat)
    (ms : List JSONRPCMessage) :
    (mkEntries sid nid ms).map EventEntry.event_id = List.range' nid ms.length := by
  induction ms generalizing nid with
  | nil => simp
  | cons m ms ih => simp [List.range'_succ, ih]

@[simp] theorem dkeys_map_entryKeyed (l : List EventEntry) :
    dkeys (l.map entryKeyed) = l.map EventEntry.event_id := by
  induction l with
  | nil => rfl
  | cons e l ih => simp [entryKeyed, ih, dkeys]

theorem storeSeq_append (s : InMemoryEventStore) (sid : StreamId)
    (l1 l2 : List JSONRPCMessage) :
    storeSeq s sid (l1 ++ l2) =
      match storeSeq s sid l1 with
      | .error e => .error e
      | .ok (ids1, s1) =>
        match storeSeq s1 sid l2 with
        | .error e => .error e
        | .ok (ids2, s2) => .ok (ids1 ++ ids2, s2) := by
  induction l1 generalizing s with
  | nil =>
    simp only [List.nil_append, storeSeq]
    cases h : storeSeq s sid l2 with
    | error e => rfl
    | ok r =>
      obtain ⟨ids, s2⟩ := r
      simp
  | cons m ms ih =>
    cases h1 : store_event s sid m with
    | error e => simp [storeSeq, h1]
    | ok r =>
      obtain ⟨eid, s1⟩ := r
      simp only [List.cons_append, storeSeq, List.append_eq, h1, ih s1]
      cases h2 : storeSeq s1 sid ms with
      | error e => rfl
      | ok r2 =>
        obtain ⟨ids1, s2⟩ := r2
        cases h3 : storeSeq s2 sid l2 with
        | error e => simp [h3]
        | ok r3 => simp [h3]

/-! ## Evaluation lemmas for `store_event`

One lemma per control path of the Python method: fresh stream, stream
below capacity, stream at capacity (eviction), and the `IndexError`
raised with capacity `0`. -/

theorem store_event_new_stream (s : InMemoryEventStore) (sid : StreamId)
    (m : JSONRPCMessage) (hdq : dlookup s.streams sid = none)
    (hcap : s.max_events_per_stream ≠ 0) :
    store_event s sid m = .ok (s.nextId,
      { max_events_per_stream := s.max_events_per_stream,
        streams := dinsert (dinsert s.streams sid [])
          sid [{ event_id := s.nextId, stream_id := sid, message := m }],
        event_index := dinsert s.event_index s.nextId
          { event_id := s.nextId, stream_id := sid, message := m },
        nextId := s.nextId + 1 }) := by
  have h0 : ¬ ((0 : Nat) = s.max_events_per_stream) := fun h => hcap h.symm
  simp [store_event, hdq, h0]

theorem store_event_not_full (s : InMemoryEventStore) (sid : StreamId)
    (m : JSONRPCMessage) (dq : List EventEntry)
    (hdq : dlookup s.streams sid = some dq)
    (hlen : dq.length ≠ s.max_events_per_stream) :
    store_event s sid m = .ok (s.nextId,
      { max_events_per_stream := s.max_events_per_stream,
        streams := dinsert s.streams sid
          (dq ++ [{ event_id := s.nextId, stream_id := sid, message := m }]),
        event_index := dinsert s.event_index s.nextId
          { event_id := s.nextId, stream_id := sid, message := m },
        nextId := s.nextId + 1 }) := by
  simp [store_event, hdq, hlen]

theorem store_event_full (s : InMemoryEventStore) (sid : StreamId)
    (m : JSONRPCMessage) (oldest : EventEntry) (rest : List EventEntry)
    (hdq : dlookup s.streams sid = some (oldest :: rest))
    (hlen : (oldest :: rest).length = s.max_events_per_stream) :
    store_event s sid m = .ok (s.nextId,
      { max_events_per_stream := s.max_events_per_stream,
        streams := dinsert s.streams sid
          (rest ++ [{ event_id := s.nextId, stream_id := sid, message := m }]),
        event_index := dinsert (derase s.event_index oldest.event_id) s.nextId
          { event_id := s.nextId, stream_id := sid, message := m },
        nextId := s.nextId + 1 }) := by
  simp [store_event, hdq, hlen]

theorem store_event_cap_zero (s : InMemoryEventStore) (sid : StreamId)
    (m : JSONRPCMessage) (hdq : dlookup s.streams sid = none)
    (hcap : s.max_events_per_stream = 0) :
    store_event s sid m = .error "IndexError: deque index out of range" := by
  simp [store_event, hdq, hcap]

theorem store_event_cap_zero_empty (s : InMemoryEventStore) (sid : StreamId)
    (m : JSONRPCMessage) (hdq : dlookup s.streams sid = some [])
    (hcap : s.max_events_per_stream = 0) :
    store_event s sid m = .error "IndexError: deque index out of range" := by
  simp [store_event, hdq, hcap]

theorem store_event_total (s : InMemoryEventStore) (sid : StreamId)
    (m : JSONRPCMessage) (hcap : 1 ≤ s.max_events_per_stream) :
    ∃ s', store_event s sid m = .ok (s.nextId, s') := by
  cases hdq : dlookup s.streams sid with
  | none =>
    exact ⟨_, store_event_new_stream s sid m hdq (by omega)⟩
  | some dq =>
    by_cases hlen : dq.length = s.max_events_per_stream
    · cases dq with
      | nil =>
        exfalso
        simp at hlen
        omega
      | cons oldest rest =>
        exact ⟨_, store_event_full s sid m oldest rest hdq hlen⟩
    · exact ⟨_, store_event_not_full s sid m dq hdq hlen⟩

theorem canonStore_nil (cap : Nat) (sid : StreamId) (nid0 : Nat) :
    canonStore cap sid nid0 [] = initStore cap nid0 := by
  simp [canonStore, initStore]

theorem mkEntries_id_lt (sid : StreamId) (nid0 : Nat) (msgs : List JSONRPCMessage)
    (a : Nat) (ha : a ∈ (mkEntries sid nid0 msgs).map EventEntry.event_id) :
    a < nid0 + msgs.length := by
  obtain ⟨e, he, rfl⟩ := List.mem_map.1 ha
  exact (mem_mkEntries sid nid0 msgs e he).2.1

theorem store_event_canon (cap : Nat) (hcap : 1 ≤ cap) (sid : StreamId) (nid0 : Nat)
    (msgs : List JSONRPCMessage) (m : JSONRPCMessage) :
    store_event (canonStore cap sid nid0 msgs) sid m =
      .ok (nid0 + msgs.length, canonStore cap sid nid0 (msgs ++ [m])) := by
  by_cases hn : msgs.length = 0
  · have hmsgs : msgs = [] := List.length_eq_zero.1 hn
    subst hmsgs
    rw [canonStore_nil]
    have hdq : dlookup (initStore cap nid0).streams sid = none := rfl
    rw [store_event_new_stream (initStore cap nid0) sid m hdq (show cap ≠ 0 by omega)]
    have h1 : (1 : Nat) - cap = 0 := Nat.sub_eq_zero_of_le hcap
    simp [canonStore, initStore, dinsert, entryKeyed, h1]
  · have hstreams : (canonStore cap sid nid0 msgs).streams =
        [(sid, (mkEntries sid nid0 msgs).drop (msgs.length - cap))] := by
      simp [canonStore, hn]
    have hindex : (canonStore cap sid nid0 msgs).event_index =
        ((mkEntries sid nid0 msgs).drop (msgs.length - cap)).map entryKeyed := rfl
    have hnext : (canonStore cap sid nid0 msgs).nextId = nid0 + msgs.length := rfl
    have hmax : (canonStore cap sid nid0 msgs).max_events_per_stream = cap := rfl
    have hdq : dlookup (canonStore cap sid nid0 msgs).streams sid =
        some ((mkEntries sid nid0 msgs).drop (msgs.length - cap)) := by
      rw [hstreams]
      simp
    have hkeeplen : ((mkEntries sid nid0 msgs).drop (msgs.length - cap)).length =
        msgs.length - (msgs.length - cap) := by
      rw [List.length_drop, mkEntries_length]
    have hENTnew : mkEntries sid nid0 (msgs ++ [m]) =
        mkEntries sid nid0 msgs ++
          [{ event_id := nid0 + msgs.length, stream_id := sid, message := m }] := by
      rw [mkEntries_append]
      rfl
    by_cases hge : cap ≤ msgs.length
    · -- at capacity: eviction
      have hkeepcap : ((mkEntries sid nid0 msgs).drop (msgs.length - cap)).length = cap := by
        rw [hkeeplen, Nat.sub_sub_self hge]
      cases hsplit : (mkEntries sid nid0 msgs).drop (msgs.length - cap) with
      | nil =>
        exfalso
        rw [hsplit] at hkeepcap
        simp at hkeepcap
        omega
      | cons oldest rest =>
        rw [hsplit] at hdq
        rw [store_event_full (canonStore cap sid nid0 msgs) sid m oldest rest hdq
          (by rw [← hsplit, hkeepcap, hmax])]
        rw [hnext, hmax, hstreams, hindex]
        have hrest : (mkEntries sid nid0 (msgs ++ [m])).drop ((msgs.length + 1) - cap) =
            rest ++ [{ event_id := nid0 + msgs.length, stream_id := sid, message := m }] := by
          rw [hENTnew]
          have harith : (msgs.length + 1) - cap = (msgs.length - cap) + 1 := by omega
          rw [harith]
          rw [List.drop_append_of_le_length (by rw [mkEntries_length]; omega)]
          have htail : (mkEntries sid nid0 msgs).drop ((msgs.length - cap) + 1) = rest := by
            rw [← List.tail_drop, hsplit]
            rfl
          rw [htail]
        have hkeyed : derase (((oldest :: rest) : List EventEntry).map entryKeyed)
            oldest.event_id = rest.map entryKeyed := by
          simp [entryKeyed, derase]
        rw [hsplit, hkeyed]
        have hfresh : nid0 + msgs.length ∉ dkeys (rest.map entryKeyed) := by
          rw [dkeys_map_entryKeyed]
          intro hc
          have hc' : nid0 + msgs.length ∈
              (mkEntries sid nid0 msgs).map EventEntry.event_id := by
            refine List.mem_map.2 ?_
            obtain ⟨e, he, hee⟩ := List.mem_map.1 hc
            refine ⟨e, ?_, hee⟩
            exact List.mem_of_mem_drop (by rw [hsplit]; exact List.mem_cons_of_mem _ he)
          exact absurd (mkEntries_id_lt sid nid0 msgs _ hc') (by omega)
        rw [dinsert_eq_append_of_not_mem _ _ _ hfresh]
        have hfinal : dinsert [(sid, oldest :: rest)] sid
            (rest ++ [{ event_id := nid0 + msgs.length, stream_id := sid, message := m }]) =
            [(sid, rest ++
              [{ event_id := nid0 + msgs.length, stream_id := sid, message := m }])] := by
          simp [dinsert]
        rw [hfinal]
        have hlen1 : ¬ ((msgs ++ [m]).length = 0) := by simp
        simp only [canonStore, List.length_append, List.length_singleton, hlen1, if_neg hlen1]
        rw [hrest]
        simp [entryKeyed, Nat.add_assoc]
    · -- below capacity: plain append
      have hlt : msgs.length < cap := Nat.lt_of_not_le hge
      have hdrop0 : msgs.length - cap = 0 := Nat.sub_eq_zero_of_le (Nat.le_of_lt hlt)
      rw [hdrop0, List.drop_zero] at hdq
      rw [store_event_not_full (canonStore cap sid nid0 msgs) sid m _ hdq
        (by rw [mkEntries_length, hmax]; omega)]
      rw [hnext, hmax, hstreams, hindex, hdrop0, List.drop_zero]
      have hfresh : nid0 + msgs.length ∉
          dkeys ((mkEntries sid nid0 msgs).map entryKeyed) := by
        rw [dkeys_map_entryKeyed]
        intro hc
        exact absurd (mkEntries_id_lt sid nid0 msgs _ hc) (by omega)
      rw [dinsert_eq_append_of_not_mem _ _ _ hfresh]
      have hfinal : dinsert [(sid, mkEntries sid nid0 msgs)] sid
          (mkEntries sid nid0 msgs ++
            [{ event_id := nid0 + msgs.length, stream_id := sid, message := m }]) =
          [(sid, mkEntries sid nid0 msgs ++
            [{ event_id := nid0 + msgs.length, stream_id := sid, message := m }])] := by
        simp [dinsert]
      rw [hfinal]
      have hlen1 : ¬ ((msgs ++ [m]).length = 0) := by simp
      have hdrop0' : (msgs.length + 1) - cap = 0 := by omega
      simp only [canonStore, List.length_append, List.length_singleton, if_neg hlen1,
        hdrop0', List.drop_zero, hENTnew]
      simp [entryKeyed, Nat.add_assoc]

theorem storeSeq_canon (cap : Nat) (hcap : 1 ≤ cap) (sid : StreamId) (nid0 : Nat)
    (msgs : List JSONRPCMessage) :
    storeSeq (initStore cap nid0) sid msgs =
      .ok (List.range' nid0 msgs.length, canonStore cap sid nid0 msgs) := by
  induction msgs using List.reverseRecOn with
  | nil =>
    rw [canonStore_nil]
    simp [storeSeq]
  | append_singleton ms m ih =>
    rw [storeSeq_append, ih]
    simp only [storeSeq, store_event_canon cap hcap sid nid0 ms m]
    simp [List.range'_concat]

/-! ## Replay: delivery is exactly the suffix after the matched entry -/

theorem replayScan_found (id : EventId) (es : List EventEntry) :
    replayScan id es true = es.map (fun e => (e.message, e.event_id)) := by
  induction es with
  | nil => rfl
  | cons e es ih => simp [replayScan, ih]

theorem replayScan_absent (id : EventId) (es : List EventEntry)
    (h : ∀ e ∈ es, e.event_id ≠ id) : replayScan id es false = [] := by
  induction es with
  | nil => rfl
  | cons e es ih =>
    have he : e.event_id ≠ id := h e (List.mem_cons_self e es)
    simp only [replayScan, if_neg he, Bool.false_eq_true, if_false]
    exact ih (fun x hx => h x (List.mem_cons_of_mem _ hx))

theorem replayScan_split (id : EventId) (before : List EventEntry)
    (lastE : EventEntry) (suf : List EventEntry)
    (hb : ∀ e ∈ before, e.event_id ≠ id) (hlast : lastE.event_id = id) :
    replayScan id (before ++ lastE :: suf) false =
      suf.map (fun e => (e.message, e.event_id)) := by
  induction before with
  | nil =>
    simp only [List.nil_append, replayScan, if_pos hlast, Bool.false_eq_true, if_false]
    exact replayScan_found id suf
  | cons e es ih =>
    have he : e.event_id ≠ id := hb e (List.mem_cons_self e es)
    simp only [List.cons_append, replayScan, if_neg he, Bool.false_eq_true, if_false]
    exact ih (fun x hx => hb x (List.mem_cons_of_mem _ hx))

theorem mkEntries_take (sid : StreamId) (nid0 : Nat) (msgs : List JSONRPCMessage)
    (i : Nat) : (mkEntries sid nid0 msgs).take i = mkEntries sid nid0 (msgs.take i) := by
  induction msgs generalizing nid0 i with
  | nil => simp
  | cons m ms ih =>
    cases i with
    | zero => simp
    | succ j => simp [ih]

theorem mkEntries_drop (sid : StreamId) (nid0 : Nat) (msgs : List JSONRPCMessage)
    (i : Nat) : (mkEntries sid nid0 msgs).drop i = mkEntries sid (nid0 + i) (msgs.drop i) := by
  induction msgs generalizing nid0 i with
  | nil => simp
  | cons m ms ih =>
    cases i with
    | zero => simp
    | succ j =>
      simp only [mkEntries_cons, List.drop_succ_cons, ih]
      have : nid0 + 1 + j = nid0 + (j + 1) := by omega
      rw [this]

theorem mkEntries_get (sid : StreamId) (nid0 : Nat) (msgs : List JSONRPCMessage)
    (i : Nat) (hi : i < msgs.length) (hi' : i < (mkEntries sid nid0 msgs).length) :
    (mkEntries sid nid0 msgs).get ⟨i, hi'⟩ =
      { event_id := nid0 + i, stream_id := sid, message := msgs.get ⟨i, hi⟩ } := by
  induction msgs generalizing nid0 i with
  | nil => simp at hi
  | cons m ms ih =>
    cases i with
    | zero => simp [mkEntries]
    | succ j =>
      have hj : j < ms.length := by simpa using hi
      have hj' : j < (mkEntries sid (nid0 + 1) ms).length := by
        rw [mkEntries_length]; exact hj
      simp only [mkEntries_cons, List.get_cons_succ]
      rw [ih (nid0 + 1) j hj hj']
      have : nid0 + 1 + j = nid0 + (j + 1) := by omega
      rw [this]

theorem mkEntries_keys_nodup (sid : StreamId) (nid0 : Nat)
    (msgs : List JSONRPCMessage) :
    (dkeys ((mkEntries sid nid0 msgs).map entryKeyed)).Nodup := by
  rw [dkeys_map_entryKeyed, mkEntries_map_id]
  exact List.nodup_range' nid0 msgs.length 1 Nat.one_pos

theorem replay_canon (cap : Nat) (sid : StreamId) (nid0 : Nat)
    (msgs : List JSONRPCMessage) (hlen : msgs.length ≤ cap) (i : Nat)
    (hi : i < msgs.length) :
    replay_events_after (canonStore cap sid nid0 msgs) (nid0 + i) =
      (canonStore cap sid nid0 msgs, some sid,
        ((mkEntries sid nid0 msgs).drop (i + 1)).map (fun e => (e.message, e.event_id))) := by
  have hn : ¬ (msgs.length = 0) := by omega
  have hdrop0 : msgs.length - cap = 0 := Nat.sub_eq_zero_of_le hlen
  have hstreams : (canonStore cap sid nid0 msgs).streams =
      [(sid, mkEntries sid nid0 msgs)] := by
    simp [canonStore, hn, hdrop0]
  have hindex : (canonStore cap sid nid0 msgs).event_index =
      (mkEntries sid nid0 msgs).map entryKeyed := by
    simp [canonStore, hdrop0]
  have hi' : i < (mkEntries sid nid0 msgs).length := by
    rw [mkEntries_length]
    exact hi
  have heIval : (mkEntries sid nid0 msgs).get ⟨i, hi'⟩ =
      { event_id := nid0 + i, stream_id := sid, message := msgs.get ⟨i, hi⟩ } :=
    mkEntries_get sid nid0 msgs i hi hi'
  have hmem : ((nid0 + i : Nat), (mkEntries sid nid0 msgs).get ⟨i, hi'⟩) ∈
      (mkEntries sid nid0 msgs).map entryKeyed := by
    have h1 : (mkEntries sid nid0 msgs).get ⟨i, hi'⟩ ∈ mkEntries sid nid0 msgs :=
      List.get_mem (mkEntries sid nid0 msgs) i hi'
    have h2 := List.mem_map_of_mem entryKeyed h1
    have h3 : entryKeyed ((mkEntries sid nid0 msgs).get ⟨i, hi'⟩) =
        ((nid0 + i : Nat), (mkEntries sid nid0 msgs).get ⟨i, hi'⟩) := by
      rw [entryKeyed, heIval]
    rwa [h3] at h2
  have hlook : dlookup ((mkEntries sid nid0 msgs).map entryKeyed) (nid0 + i) =
      some ((mkEntries sid nid0 msgs).get ⟨i, hi'⟩) :=
    dlookup_of_mem_nodup _ _ _ (mkEntries_keys_nodup sid nid0 msgs) hmem
  have hsplitdrop : (mkEntries sid nid0 msgs).drop i =
      (mkEntries sid nid0 msgs).get ⟨i, hi'⟩ :: (mkEntries sid nid0 msgs).drop (i + 1) := by
    rw [List.drop_eq_getElem_cons hi']
    simp
  have hsplit : mkEntries sid nid0 msgs =
      (mkEntries sid nid0 msgs).take i ++
        (mkEntries sid nid0 msgs).get ⟨i, hi'⟩ :: (mkEntries sid nid0 msgs).drop (i + 1) := by
    conv_lhs => rw [← List.take_append_drop i (mkEntries sid nid0 msgs)]
    rw [hsplitdrop]
  have hpre : ∀ e ∈ (mkEntries sid nid0 msgs).take i, e.event_id ≠ nid0 + i := by
    intro e he
    rw [mkEntries_take] at he
    obtain ⟨_, hlt2, _⟩ := mem_mkEntries sid nid0 (msgs.take i) e he
    have h1 : (msgs.take i).length = i := by
      rw [List.length_take]
      exact Nat.min_eq_left (Nat.le_of_lt hi)
    rw [h1] at hlt2
    exact Nat.ne_of_lt hlt2
  have hgetD : (dlookup [(sid, mkEntries sid nid0 msgs)] sid).getD [] =
      mkEntries sid nid0 msgs := by
    simp
  have hscan : replayScan (nid0 + i) (mkEntries sid nid0 msgs) false =
      ((mkEntries sid nid0 msgs).drop (i + 1)).map (fun e => (e.message, e.event_id)) := by
    conv_lhs => rw [hsplit]
    exact replayScan_split _ _ _ _ hpre (by rw [heIval])
  simp only [replay_events_after, hindex, hlook]
  rw [heIval]
  rw [hstreams]
  rw [hgetD]
  rw [hscan]

/-- A canonical store forgets everything about the evicted head of the
append sequence: it coincides with the canonical store of the last
`cap` messages started at the shifted uuid counter. -/
theorem canonStore_drop (cap : Nat) (hcap : 1 ≤ cap) (sid : StreamId) (nid0 : Nat)
    (msgs : List JSONRPCMessage) :
    canonStore cap sid nid0 msgs =
      canonStore cap sid (nid0 + (msgs.length - cap))
        (msgs.drop (msgs.length - cap)) := by
  by_cases hn : msgs.length = 0
  · have hmsgs : msgs = [] := List.length_eq_zero.1 hn
    subst hmsgs
    simp [canonStore, Nat.zero_sub]
  · have hlen' : (msgs.drop (msgs.length - cap)).length =
        msgs.length - (msgs.length - cap) := List.length_drop _ _
    have hd : msgs.length - (msgs.length - cap) - cap = 0 := by omega
    have hne' : ¬ ((msgs.drop (msgs.length - cap)).length = 0) := by
      rw [hlen']
      omega
    have hnext : nid0 + (msgs.length - cap) + (msgs.drop (msgs.length - cap)).length =
        nid0 + msgs.length := by
      rw [hlen']
      omega
    have hne2 : ¬ (msgs.length - (msgs.length - cap) = 0) := by omega
    have hnext2 : nid0 + (msgs.length - cap) + (msgs.length - (msgs.length - cap)) =
        nid0 + msgs.length := by omega
    simp only [canonStore, if_neg hn, if_neg hne', hlen', hd, List.drop_zero,
      ← mkEntries_drop, hnext, if_neg hne2, hnext2]

/-- Replay after an id whose entry survives in the deque (position `i`
with `msgs.length - cap ≤ i`): delivers exactly the suffix of entries
appended strictly after it and returns the stream id — also in
sequences longer than the capacity. -/
theorem replay_canon_surviving (cap : Nat) (hcap : 1 ≤ cap) (sid : StreamId)
    (nid0 : Nat) (msgs : List JSONRPCMessage) (i : Nat)
    (hi : i < msgs.length) (hkeep : msgs.length - cap ≤ i) :
    replay_events_after (canonStore cap sid nid0 msgs) (nid0 + i) =
      (canonStore cap sid nid0 msgs, some sid,
        ((mkEntries sid nid0 msgs).drop (i + 1)).map
          (fun e => (e.message, e.event_id))) := by
  have h1 := replay_canon cap sid (nid0 + (msgs.length - cap))
      (msgs.drop (msgs.length - cap))
      (by rw [List.length_drop]; omega) (i - (msgs.length - cap))
      (by rw [List.length_drop]; omega)
  rw [← canonStore_drop cap hcap sid nid0 msgs] at h1
  have harith : nid0 + (msgs.length - cap) + (i - (msgs.length - cap)) = nid0 + i := by
    omega
  rw [harith] at h1
  have hdel : (mkEntries sid (nid0 + (msgs.length - cap))
      (msgs.drop (msgs.length - cap))).drop ((i - (msgs.length - cap)) + 1) =
      (mkEntries sid nid0 msgs).drop (i + 1) := by
    rw [← mkEntries_drop, List.drop_drop]
    congr 1
    omega
  rw [hdel] at h1
  exact h1

/-- Replay after an id whose entry has been evicted (position `i` with
`i < msgs.length - cap`): the id is no longer in the index, so the
call returns `None` and delivers nothing. -/
theorem replay_canon_evicted (cap : Nat) (sid : StreamId) (nid0 : Nat)
    (msgs : List JSONRPCMessage) (i : Nat) (hi : i < msgs.length - cap) :
    replay_events_after (canonStore cap sid nid0 msgs) (nid0 + i) =
      (canonStore cap sid nid0 msgs, none, []) := by
  have hnone : dlookup (canonStore cap sid nid0 msgs).event_index (nid0 + i) = none := by
    show dlookup (((mkEntries sid nid0 msgs).drop (msgs.length - cap)).map entryKeyed)
      (nid0 + i) = none
    rw [dlookup_eq_none_iff, dkeys_map_entryKeyed]
    intro hc
    obtain ⟨e, he, hid⟩ := List.mem_map.1 hc
    rw [mkEntries_drop] at he
    have hb := (mem_mkEntries _ _ _ e he).1
    rw [hid] at hb
    omega
  simp only [replay_events_after, hnone]

/-! ## The store invariant

`WF` packages the structural invariants of `InMemoryEventStore`: keys
of both dicts are unique, entries carry the stream they sit in, all
ids are below the uuid counter, ids are unique within a deque, and the
index holds exactly the entries currently present in some deque. -/

theorem dinsert_dinsert {α β : Type} [DecidableEq α] (d : List (α × β)) (k : α)
    (v w : β) : dinsert (dinsert d k v) k w = dinsert d k w := by
  induction d with
  | nil => simp [dinsert]
  | cons p d ih =>
    obtain ⟨k', v'⟩ := p
    by_cases hk : k' = k
    · simp [dinsert, hk]
    · simp [dinsert, hk, ih]

theorem mem_dinsert_nodup {α β : Type} [DecidableEq α] (d : List (α × β)) (k : α)
    (v : β) (p : α × β) (hnd : (dkeys d).Nodup) (h : p ∈ dinsert d k v) :
    p = (k, v) ∨ (p ∈ d ∧ p.1 ≠ k) := by
  induction d with
  | nil =>
    simp only [dinsert, List.mem_singleton] at h
    exact Or.inl h
  | cons q d ih =>
    obtain ⟨k', v'⟩ := q
    rw [dkeys_cons, List.nodup_cons] at hnd
    by_cases hk : k' = k
    · subst hk
      simp only [dinsert, if_pos rfl] at h
      rcases List.mem_cons.1 h with h' | h'
      · exact Or.inl h'
      · refine Or.inr ⟨List.mem_cons_of_mem _ h', ?_⟩
        intro hc
        exact hnd.1 ((mem_dkeys d k').2 ⟨p, h', hc⟩)
    · simp only [dinsert, if_neg hk] at h
      rcases List.mem_cons.1 h with h' | h'
      · subst h'
        exact Or.inr ⟨List.mem_cons_self _ _, hk⟩
      · rcases ih hnd.2 h' with h'' | h''
        · exact Or.inl h''
        · exact Or.inr ⟨List.mem_cons_of_mem _ h''.1, h''.2⟩

/-- Structural invariant of the event store. -/
def WF (s : InMemoryEventStore) : Prop :=
  (dkeys s.streams).Nodup ∧
  (dkeys s.event_index).Nodup ∧
  (∀ p ∈ s.streams, ∀ e ∈ p.2, e.stream_id = p.1 ∧ e.event_id < s.nextId) ∧
  (∀ p ∈ s.streams, (p.2.map EventEntry.event_id).Nodup) ∧
  (∀ q ∈ s.event_index, q.1 = q.2.event_id ∧ q.2 ∈ dequeOf s q.2.stream_id) ∧
  (∀ p ∈ s.streams, ∀ e ∈ p.2, dlookup s.event_index e.event_id = some e)

instance (s : InMemoryEventStore) : Decidable (WF s) := by
  unfold WF
  infer_instance

theorem WF_init (cap nid : Nat) : WF (initStore cap nid) := by
  refine ⟨?_, ?_, ?_, ?_, ?_, ?_⟩ <;> simp [initStore]

theorem mem_dequeOf (s : InMemoryEventStore) (x : StreamId) (e : EventEntry)
    (h : e ∈ dequeOf s x) :
    ∃ dq, dlookup s.streams x = some dq ∧ e ∈ dq := by
  cases hl : dlookup s.streams x with
  | none =>
    rw [dequeOf, hl] at h
    simp at h
  | some dq =>
    rw [dequeOf, hl] at h
    exact ⟨dq, rfl, h⟩

theorem dequeOf_eq (s : InMemoryEventStore) (x : StreamId) (dq : List EventEntry)
    (h : dlookup s.streams x = some dq) : dequeOf s x = dq := by
  rw [dequeOf, h]
  rfl

theorem WF_index_key_lt (s : InMemoryEventStore) (hWF : WF s) (q : EventId × EventEntry)
    (hq : q ∈ s.event_index) : q.1 < s.nextId := by
  obtain ⟨_, _, hse, _, hqs, _⟩ := hWF
  obtain ⟨hq1, hq2⟩ := hqs q hq
  obtain ⟨dq, hdq, hmem⟩ := mem_dequeOf s q.2.stream_id q.2 hq2
  have hlt := (hse (q.2.stream_id, dq) (dlookup_mem _ _ _ hdq) q.2 hmem).2
  rw [hq1]
  exact hlt

theorem WF_index_fresh (s : InMemoryEventStore) (hWF : WF s) :
    s.nextId ∉ dkeys s.event_index := by
  intro hc
  obtain ⟨q, hq, hq1⟩ := (mem_dkeys _ _).1 hc
  have hlt := WF_index_key_lt s hWF q hq
  rw [hq1] at hlt
  exact absurd hlt (lt_irrefl _)

theorem WF_register_empty (s : InMemoryEventStore) (sid : StreamId) (hWF : WF s)
    (hdq : dlookup s.streams sid = none) :
    WF { max_events_per_stream := s.max_events_per_stream,
         streams := dinsert s.streams sid [],
         event_index := s.event_index,
         nextId := s.nextId } := by
  obtain ⟨hks, hik, hse, hsd, hsnd, hcomp⟩ := hWF
  have hdeq : ∀ x, (dlookup (dinsert s.streams sid []) x).getD [] = dequeOf s x := by
    intro x
    by_cases hx : x = sid
    · subst hx
      rw [dlookup_dinsert_self, dequeOf, hdq]
      rfl
    · rw [dequeOf]
      have h1 : dlookup (dinsert s.streams sid []) x = dlookup s.streams x :=
        dlookup_dinsert_ne _ _ _ _ (fun hc => hx hc.symm)
      rw [h1]
  refine ⟨dkeys_dinsert_nodup _ _ _ hks, hik, ?_, ?_, ?_, ?_⟩
  · intro p hp e he
    rcases mem_dinsert _ _ _ _ hp with h' | h'
    · subst h'
      simp at he
    · exact hse p h' e he
  · intro p hp
    rcases mem_dinsert _ _ _ _ hp with h' | h'
    · subst h'
      simp
    · exact hsd p h'
  · intro q hq
    refine ⟨(hsnd q hq).1, ?_⟩
    show q.2 ∈ (dlookup (dinsert s.streams sid []) q.2.stream_id).getD []
    rw [hdeq]
    exact (hsnd q hq).2
  · intro p hp e he
    rcases mem_dinsert _ _ _ _ hp with h' | h'
    · subst h'
      simp at he
    · exact hcomp p h' e he

theorem WF_append_entry (s : InMemoryEventStore) (sid : StreamId)
    (m : JSONRPCMessage) (dq : List EventEntry) (hWF : WF s)
    (hdq : dlookup s.streams sid = some dq) :
    WF { max_events_per_stream := s.max_events_per_stream,
         streams := dinsert s.streams sid
           (dq ++ [{ event_id := s.nextId, stream_id := sid, message := m }]),
         event_index := dinsert s.event_index s.nextId
           { event_id := s.nextId, stream_id := sid, message := m },
         nextId := s.nextId + 1 } := by
  have hfresh := WF_index_fresh s hWF
  obtain ⟨hks, hik, hse, hsd, hsnd, hcomp⟩ := hWF
  have hmemdq : ((sid, dq) : StreamId × List EventEntry) ∈ s.streams :=
    dlookup_mem _ _ _ hdq
  refine ⟨dkeys_dinsert_nodup _ _ _ hks, dkeys_dinsert_nodup _ _ _ hik, ?_, ?_, ?_, ?_⟩
  · intro p hp e he
    rcases mem_dinsert _ _ _ _ hp with h' | h'
    · subst h'
      rcases List.mem_append.1 he with he' | he'
      · have h2 := hse (sid, dq) hmemdq e he'
        exact ⟨h2.1, Nat.lt_succ_of_lt h2.2⟩
      · rw [List.mem_singleton] at he'
        subst he'
        exact ⟨rfl, Nat.lt_succ_self _⟩
    · have h2 := hse p h' e he
      exact ⟨h2.1, Nat.lt_succ_of_lt h2.2⟩
  · intro p hp
    rcases mem_dinsert _ _ _ _ hp with h' | h'
    · subst h'
      rw [List.map_append]
      refine List.Nodup.append (hsd (sid, dq) hmemdq) (by simp) ?_
      intro a ha hb
      simp only [List.map_cons, List.map_nil, List.mem_singleton] at hb
      subst hb
      obtain ⟨e', he', hid⟩ := List.mem_map.1 ha
      have h2 := (hse (sid, dq) hmemdq e' he').2
      rw [hid] at h2
      exact absurd h2 (lt_irrefl _)
    · exact hsd p h'
  · intro q hq
    rcases mem_dinsert _ _ _ _ hq with h' | h'
    · subst h'
      refine ⟨rfl, ?_⟩
      rw [dequeOf_eq _ _ _ (dlookup_dinsert_self _ _ _)]
      exact List.mem_append_right _ (List.mem_singleton.2 rfl)
    · obtain ⟨hq1, hq2⟩ := hsnd q h'
      refine ⟨hq1, ?_⟩
      by_cases hx : q.2.stream_id = sid
      · rw [hx]
        rw [dequeOf_eq _ _ _ (dlookup_dinsert_self _ _ _)]
        rw [hx, dequeOf_eq s sid dq hdq] at hq2
        exact List.mem_append_left _ hq2
      · have heq : dlookup (dinsert s.streams sid
            (dq ++ [{ event_id := s.nextId, stream_id := sid, message := m }]))
            q.2.stream_id = dlookup s.streams q.2.stream_id :=
          dlookup_dinsert_ne _ _ _ _ (fun hc => hx hc.symm)
        rw [dequeOf, heq]
        exact hq2
  · intro p hp e he
    rcases mem_dinsert _ _ _ _ hp with h' | h'
    · subst h'
      rcases List.mem_append.1 he with he' | he'
      · have hlt := (hse (sid, dq) hmemdq e he').2
        have hne : s.nextId ≠ e.event_id := by
          intro hcx
          rw [← hcx] at hlt
          exact absurd hlt (lt_irrefl _)
        rw [dlookup_dinsert_ne _ _ _ _ hne]
        exact hcomp (sid, dq) hmemdq e he'
      · rw [List.mem_singleton] at he'
        subst he'
        exact dlookup_dinsert_self _ _ _
    · have hlt := (hse p h' e he).2
      have hne : s.nextId ≠ e.event_id := by
        intro hcx
        rw [← hcx] at hlt
        exact absurd hlt (lt_irrefl _)
      rw [dlookup_dinsert_ne _ _ _ _ hne]
      exact hcomp p h' e he

theorem WF_evict_entry (s : InMemoryEventStore) (sid : StreamId)
    (m : JSONRPCMessage) (oldest : EventEntry) (rest : List EventEntry)
    (hWF : WF s) (hdq : dlookup s.streams sid = some (oldest :: rest)) :
    WF { max_events_per_stream := s.max_events_per_stream,
         streams := dinsert s.streams sid
           (rest ++ [{ event_id := s.nextId, stream_id := sid, message := m }]),
         event_index := dinsert (derase s.event_index oldest.event_id) s.nextId
           { event_id := s.nextId, stream_id := sid, message := m },
         nextId := s.nextId + 1 } := by
  have hfresh := WF_index_fresh s hWF
  obtain ⟨hks, hik, hse, hsd, hsnd, hcomp⟩ := hWF
  have hmemdq : ((sid, oldest :: rest) : StreamId × List EventEntry) ∈ s.streams :=
    dlookup_mem _ _ _ hdq
  have hrestids : oldest.event_id ∉ rest.map EventEntry.event_id := by
    have h1 := hsd (sid, oldest :: rest) hmemdq
    rw [List.map_cons, List.nodup_cons] at h1
    exact h1.1
  refine ⟨dkeys_dinsert_nodup _ _ _ hks,
    dkeys_dinsert_nodup _ _ _ (dkeys_derase_nodup _ _ hik), ?_, ?_, ?_, ?_⟩
  · intro p hp e he
    rcases mem_dinsert _ _ _ _ hp with h' | h'
    · subst h'
      rcases List.mem_append.1 he with he' | he'
      · have h2 := hse (sid, oldest :: rest) hmemdq e (List.mem_cons_of_mem _ he')
        exact ⟨h2.1, Nat.lt_succ_of_lt h2.2⟩
      · rw [List.mem_singleton] at he'
        subst he'
        exact ⟨rfl, Nat.lt_succ_self _⟩
    · have h2 := hse p h' e he
      exact ⟨h2.1, Nat.lt_succ_of_lt h2.2⟩
  · intro p hp
    rcases mem_dinsert _ _ _ _ hp with h' | h'
    · subst h'
      rw [List.map_append]
      have h1 := hsd (sid, oldest :: rest) hmemdq
      rw [List.map_cons, List.nodup_cons] at h1
      refine List.Nodup.append h1.2 (by simp) ?_
      intro a ha hb
      simp only [List.map_cons, List.map_nil, List.mem_singleton] at hb
      subst hb
      obtain ⟨e', he', hid⟩ := List.mem_map.1 ha
      have h2 := (hse (sid, oldest :: rest) hmemdq e' (List.mem_cons_of_mem _ he')).2
      rw [hid] at h2
      exact absurd h2 (lt_irrefl _)
    · exact hsd p h'
  · intro q hq
    rcases mem_dinsert _ _ _ _ hq with h' | h'
    · subst h'
      refine ⟨rfl, ?_⟩
      rw [dequeOf_eq _ _ _ (dlookup_dinsert_self _ _ _)]
      exact List.mem_append_right _ (List.mem_singleton.2 rfl)
    · have hqin : q ∈ s.event_index := mem_derase _ _ _ h'
      have hqne : q.1 ≠ oldest.event_id := mem_derase_key_ne _ _ _ hik h'
      obtain ⟨hq1, hq2⟩ := hsnd q hqin
      refine ⟨hq1, ?_⟩
      by_cases hx : q.2.stream_id = sid
      · rw [hx]
        rw [dequeOf_eq _ _ _ (dlookup_dinsert_self _ _ _)]
        rw [hx, dequeOf_eq s sid (oldest :: rest) hdq] at hq2
        rcases List.mem_cons.1 hq2 with h2 | h2
        · exfalso
          rw [hq1, h2] at hqne
          exact hqne rfl
        · exact List.mem_append_left _ h2
      · have heq : dlookup (dinsert s.streams sid
            (rest ++ [{ event_id := s.nextId, stream_id := sid, message := m }]))
            q.2.stream_id = dlookup s.streams q.2.stream_id :=
          dlookup_dinsert_ne _ _ _ _ (fun hc => hx hc.symm)
        rw [dequeOf, heq]
        exact hq2
  · intro p hp e he
    rcases mem_dinsert_nodup _ _ _ _ hks hp with h' | h'
    · subst h'
      rcases List.mem_append.1 he with he' | he'
      · have hlt := (hse (sid, oldest :: rest) hmemdq e (List.mem_cons_of_mem _ he')).2
        have hne : s.nextId ≠ e.event_id := by
          intro hcx
          rw [← hcx] at hlt
          exact absurd hlt (lt_irrefl _)
        rw [dlookup_dinsert_ne _ _ _ _ hne]
        have hneo : oldest.event_id ≠ e.event_id := by
          intro hcx
          exact hrestids (List.mem_map.2 ⟨e, he', hcx.symm⟩)
        rw [dlookup_derase_ne _ _ _ hneo]
        exact hcomp (sid, oldest :: rest) hmemdq e (List.mem_cons_of_mem _ he')
      · rw [List.mem_singleton] at he'
        subst he'
        exact dlookup_dinsert_self _ _ _
    · obtain ⟨hpin, hpne⟩ := h'
      have hlt := (hse p hpin e he).2
      have hne : s.nextId ≠ e.event_id := by
        intro hcx
        rw [← hcx] at hlt
        exact absurd hlt (lt_irrefl _)
      rw [dlookup_dinsert_ne _ _ _ _ hne]
      have hneo : oldest.event_id ≠ e.event_id := by
        intro hcx
        have hle := hcomp p hpin e he
        have hlo := hcomp (sid, oldest :: rest) hmemdq oldest (List.mem_cons_self _ _)
        rw [← hcx] at hle
        rw [hlo] at hle
        have heo : oldest = e := by
          injection hle
        have h3 := (hse p hpin e he).1
        have h4 := (hse (sid, oldest :: rest) hmemdq oldest (List.mem_cons_self _ _)).1
        rw [← heo] at h3
        rw [h4] at h3
        exact hpne h3.symm
      rw [dlookup_derase_ne _ _ _ hneo]
      exact hcomp p hpin e he

theorem store_event_WF (s : InMemoryEventStore) (sid : StreamId)
    (m : JSONRPCMessage) (eid : EventId) (s' : InMemoryEventStore) (hWF : WF s)
    (hstep : store_event s sid m = .ok (eid, s')) : WF s' := by
  cases hdq : dlookup s.streams sid with
  | none =>
    by_cases hcap : s.max_events_per_stream = 0
    · rw [store_event_cap_zero s sid m hdq hcap] at hstep
      simp at hstep
    · rw [store_event_new_stream s sid m hdq hcap] at hstep
      injection hstep with h
      injection h with h1 h2
      subst h2
      have h0 := WF_register_empty s sid hWF hdq
      have h3 := WF_append_entry
        { max_events_per_stream := s.max_events_per_stream,
          streams := dinsert s.streams sid [],
          event_index := s.event_index,
          nextId := s.nextId } sid m [] h0 (dlookup_dinsert_self _ _ _)
      exact h3
  | some dq =>
    by_cases hlen : dq.length = s.max_events_per_stream
    · cases dq with
      | nil =>
        have hcap0 : s.max_events_per_stream = 0 := by simpa using hlen.symm
        rw [store_event_cap_zero_empty s sid m hdq hcap0] at hstep
        simp at hstep
      | cons oldest rest =>
        rw [store_event_full s sid m oldest rest hdq hlen] at hstep
        injection hstep with h
        injection h with h1 h2
        subst h2
        exact WF_evict_entry s sid m oldest rest hWF hdq
    · rw [store_event_not_full s sid m dq hdq hlen] at hstep
      injection hstep with h
      injection h with h1 h2
      subst h2
      exact WF_append_entry s sid m dq hWF hdq

theorem replay_fst (s : InMemoryEventStore) (eid : EventId) :
    (replay_events_after s eid).1 = s := by
  cases hl : dlookup s.event_index eid with
  | none => simp [replay_events_after, hl]
  | some e => simp [replay_events_after, hl]

/-- The states reachable from the empty store by `store_event` and
`replay_events_after` calls. -/
inductive Reachable (cap : Nat) : InMemoryEventStore → Prop
  | init (nid : Nat) : Reachable cap (initStore cap nid)
  | store (s : InMemoryEventStore) (sid : StreamId) (m : JSONRPCMessage)
      (eid : EventId) (s' : InMemoryEventStore) (hs : Reachable cap s)
      (hstep : store_event s sid m = .ok (eid, s')) : Reachable cap s'
  | replay (s : InMemoryEventStore) (eid : EventId) (hs : Reachable cap s) :
      Reachable cap ((replay_events_after s eid).1)

theorem reachable_WF (cap : Nat) (s : InMemoryEventStore)
    (h : Reachable cap s) : WF s := by
  induction h with
  | init nid => exact WF_init cap nid
  | store s sid m eid s' hs hstep ih => exact store_event_WF s sid m eid s' ih hstep
  | replay s eid hs ih =>
    rw [replay_fst]
    exact ih

/-! ## The ASGI router (`server.py` lines 256-309)

`handle_streamable_http` dispatches on the `mcp-session-id` header:
known session ⇒ delegate to its transport; no header ⇒ create a new
session under `session_creation_lock` (generate `uuid4().hex`, build
the transport, register it in `server_instances`, check `task_group`,
start the session task, handle the request — all inside the `async
with` block); unknown header ⇒ HTTP 400.  Session ids (`uuid4().hex`)
are opaque fresh tokens, modelled by a counter supply.  The function
returns the outcome, the updated `server_instances` dict, and the
trace of primitive steps in execution order. -/

abbrev SessionId := Nat

/-- A `StreamableHTTPServerTransport`, modelled by the session id it is
bound to (`mcp_session_id`). -/
structure Transport where
  mcp_session_id : SessionId
deriving DecidableEq, Repr

/-- The primitive observable steps of `handle_streamable_http`. -/
inductive RouterAction where
  | readHeader
  | delegateExisting
  | acquireLock
  | genSessionId
  | mkTransport
  | registerTransport
  | checkTaskGroup
  | startSessionTask
  | handleCreatedRequest
  | raiseRuntimeError
  | releaseLock
  | respondBadRequest
deriving DecidableEq, Repr

/-- The outcome of one call of `handle_streamable_http`: delegation to
an existing transport, creation of a new session, the HTTP 400
response, or the propagated `RuntimeError`. -/
inductive RouterOutcome where
  | delegated (sid : SessionId)
  | created (sid : SessionId)
  | badRequest
  | runtimeError
deriving DecidableEq, Repr

/-- The handler `handle_streamable_http(scope, receive, send)` over the state it
touches: `server_instances`, the `task_group` global (`true` when the
lifespan has initialized it and it was not yet torn down), and the
value the uuid supply would produce.  The trailing `releaseLock` after
`raiseRuntimeError` records that `async with` releases the lock while
the exception unwinds; note the transport is registered before the
`task_group` check, exactly as in the source. -/
def handle_streamable_http (server_instances : List (SessionId × Transport))
    (task_group : Bool) (freshId : SessionId) (header : Option SessionId) :
    RouterOutcome × List (SessionId × Transport) × List RouterAction :=
  match header with
  | some request_mcp_session_id =>
    match dlookup server_instances request_mcp_session_id with
    | some _transport =>
      (.delegated request_mcp_session_id, server_instances,
        [.readHeader, .delegateExisting])
    | none =>
      (.badRequest, server_instances, [.readHeader, .respondBadRequest])
  | none =>
    let http_transport : Transport := { mcp_session_id := freshId }
    let instances1 :=
      dinsert server_instances http_transport.mcp_session_id http_transport
    if task_group then
      (.created freshId, instances1,
        [.readHeader, .acquireLock, .genSessionId, .mkTransport,
          .registerTransport, .checkTaskGroup, .startSessionTask,
          .handleCreatedRequest, .releaseLock])
    else
      (.runtimeError, instances1,
        [.readHeader, .acquireLock, .genSessionId, .mkTransport,
          .registerTransport, .checkTaskGroup, .raiseRuntimeError, .releaseLock])

/-- Whether some occurrence of `a` in the trace happens while the
session-creation lock is held (`depth` locks held on entry). -/
def lockHeldDuringAux (a : RouterAction) : List RouterAction → Nat → Bool
  | [], _ => false
  | x :: xs, depth =>
    let depth' :=
      match x with
      | RouterAction.acquireLock => depth + 1
      | RouterAction.releaseLock => depth - 1
      | _ => depth
    (decide (x = a) && decide (0 < depth)) || lockHeldDuringAux a xs depth'

/-- Whether `a` is ever executed while the lock is held. -/
def lockHeldDuring (a : RouterAction) (tr : List RouterAction) : Bool :=
  lockHeldDuringAux a tr 0

/-- Runs `n` session-creating requests (no session header), serialized by
`session_creation_lock`; the uuid supply hands out
`nextUuid, nextUuid + 1, ...`.  Returns the created session ids and
the final `server_instances`. -/
def runCreations (server_instances : List (SessionId × Transport))
    (task_group : Bool) (nextUuid : Nat) :
    Nat → List SessionId × List (SessionId × Transport)
  | 0 => ([], server_instances)
  | n + 1 =>
    let r := handle_streamable_http server_instances task_group nextUuid none
    let rest := runCreations r.2.1 task_group (nextUuid + 1) n
    (nextUuid :: rest.1, rest.2)

theorem handle_create_instances (server_instances : List (SessionId × Transport))
    (freshId : SessionId) :
    (handle_streamable_http server_instances true freshId none).2.1 =
      dinsert server_instances freshId { mcp_session_id := freshId } := rfl

theorem runCreations_spec (n : Nat) :
    ∀ (server_instances : List (SessionId × Transport)) (nextUuid : Nat),
    (∀ k ∈ dkeys server_instances, k < nextUuid) →
    runCreations server_instances true nextUuid n =
      (List.range' nextUuid n,
        server_instances ++
          (List.range' nextUuid n).map
            (fun i => (i, ({ mcp_session_id := i } : Transport)))) := by
  induction n with
  | zero =>
    intro inst u hfresh
    simp [runCreations]
  | succ n ih =>
    intro inst u hfresh
    have hnotmem : u ∉ dkeys inst := fun hc => absurd (hfresh u hc) (lt_irrefl _)
    have hins : dinsert inst u ({ mcp_session_id := u } : Transport) =
        inst ++ [(u, ({ mcp_session_id := u } : Transport))] :=
      dinsert_eq_append_of_not_mem _ _ _ hnotmem
    have hfresh' : ∀ k ∈ dkeys (inst ++ [(u, ({ mcp_session_id := u } : Transport))]),
        k < u + 1 := by
      intro k hk
      rw [dkeys_append] at hk
      rcases List.mem_append.1 hk with hk' | hk'
      · exact Nat.lt_succ_of_lt (hfresh k hk')
      · simp only [dkeys_cons, dkeys_nil, List.mem_singleton] at hk'
        subst hk'
        exact Nat.lt_succ_self _
    show (u :: (runCreations (dinsert inst u _) true (u + 1) n).1,
      (runCreations (dinsert inst u _) true (u + 1) n).2) = _
    rw [hins, ih (inst ++ [(u, ({ mcp_session_id := u } : Transport))]) (u + 1) hfresh']
    simp [List.range'_succ, List.append_assoc]

theorem replayScan_sub (id : EventId) (es : List EventEntry) (b : Bool)
    (d : EventMessage) (hd : d ∈ replayScan id es b) :
    ∃ e ∈ es, d = (e.message, e.event_id) := by
  induction es generalizing b with
  | nil => simp [replayScan] at hd
  | cons e es ih =>
    by_cases hb : b
    · subst hb
      simp only [replayScan, if_pos rfl] at hd
      rcases List.mem_cons.1 hd with h' | h'
      · exact ⟨e, List.mem_cons_self _ _, h'⟩
      · obtain ⟨e', he', hde⟩ := ih true h'
        exact ⟨e', List.mem_cons_of_mem _ he', hde⟩
    · have hb' : b = false := by
        cases b
        · rfl
        · exact absurd rfl hb
      subst hb'
      by_cases hid : e.event_id = id
      · simp only [replayScan, Bool.false_eq_true, if_false, if_pos hid] at hd
        obtain ⟨e', he', hde⟩ := ih true hd
        exact ⟨e', List.mem_cons_of_mem _ he', hde⟩
      · simp only [replayScan, Bool.false_eq_true, if_false, if_neg hid] at hd
        obtain ⟨e', he', hde⟩ := ih false hd
        exact ⟨e', List.mem_cons_of_mem _ he', hde⟩

theorem dkeys_map_pair {α : Type} (l : List α) (f : α → Transport) :
    dkeys (l.map (fun i => (i, f i))) = l := by
  induction l with
  | nil => rfl
  | cons a l ih => simp [dkeys] at ih ⊢; exact ih

/-! ## Claim theorems -/

/-- Claim C1, counterexample to the unconditional statement: with
capacity 1 and the append sequence "a", "b" on stream "S", the two
appends return the distinct ids 0 and 1, but `replay_events_after 0`
returns `none` and delivers nothing (the entry was evicted), instead
of returning the stream id "S" and delivering the entry appended after
event 0 as the claim demands for every returned id. -/
theorem C1_counterexample :
    (storeSeq (initStore 1 0) "S" ["a", "b"]).toOption.map
        (fun r => (r.1, (replay_events_after r.2 0).2)) =
      some ([0, 1], (none, [])) ∧
    (storeSeq (initStore 1 0) "S" ["a", "b"]).toOption.map
        (fun r => (replay_events_after r.2 0).2.1) ≠ some (some "S") := by
  exact ⟨rfl, by decide⟩

/-- Claim C1 (amended): for every sequence of `store_event` calls on
one stream, the returned event ids are pairwise distinct; on the id of
append `i`, provided its entry has not been evicted (`i` within the
last `cap` appends, in particular always when the whole sequence is
within capacity), `replay_events_after` invokes the callback on
exactly the entries appended strictly after it, in append order, never
redelivering the matched event, and returns the stream's id; for an
evicted id it returns `None` and delivers nothing. -/
theorem C1_append_replay (cap nid0 : Nat) (sid : StreamId)
    (msgs : List JSONRPCMessage) (i : Nat) (hcap : 1 ≤ cap)
    (hi : i < msgs.length) :
    storeSeq (initStore cap nid0) sid msgs =
      Except.ok (List.range' nid0 msgs.length, canonStore cap sid nid0 msgs) ∧
    (List.range' nid0 msgs.length).Nodup ∧
    (msgs.length - cap ≤ i →
      replay_events_after (canonStore cap sid nid0 msgs) (nid0 + i) =
        (canonStore cap sid nid0 msgs, some sid,
          ((mkEntries sid nid0 msgs).drop (i + 1)).map
            (fun e => (e.message, e.event_id)))) ∧
    (i < msgs.length - cap →
      replay_events_after (canonStore cap sid nid0 msgs) (nid0 + i) =
        (canonStore cap sid nid0 msgs, none, [])) :=
  ⟨storeSeq_canon cap hcap sid nid0 msgs,
   List.nodup_range' nid0 msgs.length 1 Nat.one_pos,
   fun hkeep => replay_canon_surviving cap hcap sid nid0 msgs i hi hkeep,
   fun hev => replay_canon_evicted cap sid nid0 msgs i hev⟩

theorem C1_witness :
    storeSeq (initStore 2 0) "S" ["a", "b", "c"] =
      Except.ok ([0, 1, 2], canonStore 2 "S" 0 ["a", "b", "c"]) ∧
    ([0, 1, 2] : List Nat).Nodup ∧
    replay_events_after (canonStore 2 "S" 0 ["a", "b", "c"]) 1 =
      (canonStore 2 "S" 0 ["a", "b", "c"], some "S", [("c", 2)]) ∧
    replay_events_after (canonStore 2 "S" 0 ["a", "b", "c"]) 0 =
      (canonStore 2 "S" 0 ["a", "b", "c"], none, []) := by
  have h1 := C1_append_replay 2 0 "S" ["a", "b", "c"] 1 (by decide) (by decide)
  have h0 := C1_append_replay 2 0 "S" ["a", "b", "c"] 0 (by decide) (by decide)
  exact ⟨h1.1, h1.2.1, h1.2.2.1 (by decide), h0.2.2.2 (by decide)⟩

/-- Claim C2: for a stream holding exactly `max_events_per_stream`
entries, one further `store_event` evicts exactly the oldest entry,
removes its id from the event index, leaves the remaining entries
intact in both deque and index, leaves other streams untouched, and
afterwards `replay_events_after` on the evicted id returns `None`
delivering nothing. -/
theorem C2_eviction (s : InMemoryEventStore) (A : StreamId) (m : JSONRPCMessage)
    (e0 : EventEntry) (rest : List EventEntry) (eid : EventId)
    (s' : InMemoryEventStore) (hWF : WF s)
    (hdq : dlookup s.streams A = some (e0 :: rest))
    (hfull : (e0 :: rest).length = s.max_events_per_stream)
    (hstep : store_event s A m = Except.ok (eid, s')) :
    eid = s.nextId ∧
    dlookup s'.streams A =
      some (rest ++ [{ event_id := s.nextId, stream_id := A, message := m }]) ∧
    dlookup s'.event_index e0.event_id = none ∧
    (∀ e ∈ rest, dlookup s'.event_index e.event_id = some e) ∧
    replay_events_after s' e0.event_id = (s', none, []) ∧
    (∀ B, B ≠ A → dlookup s'.streams B = dlookup s.streams B) := by
  rw [store_event_full s A m e0 rest hdq hfull] at hstep
  injection hstep with h
  injection h with h1 h2
  subst h2
  obtain ⟨hks, hik, hse, hsd, hsnd, hcomp⟩ := hWF
  have hmemdq : ((A, e0 :: rest) : StreamId × List EventEntry) ∈ s.streams :=
    dlookup_mem _ _ _ hdq
  have he0lt : e0.event_id < s.nextId :=
    (hse _ hmemdq e0 (List.mem_cons_self _ _)).2
  have hne : s.nextId ≠ e0.event_id := by
    intro hcx
    rw [← hcx] at he0lt
    exact absurd he0lt (lt_irrefl _)
  have hnone : dlookup (dinsert (derase s.event_index e0.event_id) s.nextId
      { event_id := s.nextId, stream_id := A, message := m }) e0.event_id = none := by
    rw [dlookup_dinsert_ne _ _ _ _ hne]
    exact dlookup_derase_self _ _ hik
  refine ⟨h1.symm, dlookup_dinsert_self _ _ _, hnone, ?_, ?_, ?_⟩
  · intro e he
    have hrestids : e0.event_id ∉ rest.map EventEntry.event_id := by
      have hx := hsd _ hmemdq
      rw [List.map_cons, List.nodup_cons] at hx
      exact hx.1
    have hlt := (hse _ hmemdq e (List.mem_cons_of_mem _ he)).2
    have hnee : s.nextId ≠ e.event_id := by
      intro hcx
      rw [← hcx] at hlt
      exact absurd hlt (lt_irrefl _)
    show dlookup (dinsert (derase s.event_index e0.event_id) s.nextId
      { event_id := s.nextId, stream_id := A, message := m }) e.event_id = some e
    rw [dlookup_dinsert_ne _ _ _ _ hnee]
    have hneo : e0.event_id ≠ e.event_id := by
      intro hcx
      exact hrestids (List.mem_map.2 ⟨e, he, hcx.symm⟩)
    rw [dlookup_derase_ne _ _ _ hneo]
    exact hcomp _ hmemdq e (List.mem_cons_of_mem _ he)
  · simp only [replay_events_after, hnone]
  · intro B hB
    show dlookup (dinsert s.streams A _) B = dlookup s.streams B
    exact dlookup_dinsert_ne _ _ _ _ (fun hc => hB hc.symm)

/-- Concrete store for witnesses: stream "S" at capacity 2. -/
def fullStore : InMemoryEventStore :=
  { max_events_per_stream := 2,
    streams := [("S", [{ event_id := 0, stream_id := "S", message := "a" },
                       { event_id := 1, stream_id := "S", message := "b" }])],
    event_index := [(0, { event_id := 0, stream_id := "S", message := "a" }),
                    (1, { event_id := 1, stream_id := "S", message := "b" })],
    nextId := 2 }

/-- The store after one further `store_event` on the full stream. -/
def fullStoreAfter : InMemoryEventStore :=
  { max_events_per_stream := 2,
    streams := [("S", [{ event_id := 1, stream_id := "S", message := "b" },
                       { event_id := 2, stream_id := "S", message := "c" }])],
    event_index := [(1, { event_id := 1, stream_id := "S", message := "b" }),
                    (2, { event_id := 2, stream_id := "S", message := "c" })],
    nextId := 3 }

theorem C2_witness :
    WF fullStore ∧
    store_event fullStore "S" "c" = Except.ok (2, fullStoreAfter) ∧
    dlookup fullStoreAfter.event_index 0 = none ∧
    replay_events_after fullStoreAfter 0 = (fullStoreAfter, none, []) := by
  have h := C2_eviction fullStore "S" "c"
    { event_id := 0, stream_id := "S", message := "a" }
    [{ event_id := 1, stream_id := "S", message := "b" }] 2 fullStoreAfter
    (by decide) rfl rfl rfl
  exact ⟨by decide, rfl, h.2.2.1, h.2.2.2.2.1⟩

/-- Claim C8: `replay_events_after` is read-only: the streams mapping,
every stream's deque, and the event index are unchanged. -/
theorem C8_replay_readonly (s : InMemoryEventStore) (eid : EventId) :
    (replay_events_after s eid).1 = s ∧
    (replay_events_after s eid).1.streams = s.streams ∧
    (replay_events_after s eid).1.event_index = s.event_index ∧
    (∀ x, dequeOf (replay_events_after s eid).1 x = dequeOf s x) :=
  ⟨replay_fst s eid, by rw [replay_fst], by rw [replay_fst],
   fun x => by rw [replay_fst]⟩

/-- Claim C9: `store_event` is total exactly when
`max_events_per_stream ≥ 1`: with capacity 0 the first call on a
stream reaches the eviction branch with an empty deque and raises
`IndexError`; with capacity at least 1 every call returns normally. -/
theorem C9_cap_guard (s : InMemoryEventStore) (sid : StreamId)
    (m : JSONRPCMessage) :
    (s.max_events_per_stream = 0 → dlookup s.streams sid = none →
      store_event s sid m = Except.error "IndexError: deque index out of range") ∧
    (1 ≤ s.max_events_per_stream →
      ∃ s', store_event s sid m = Except.ok (s.nextId, s')) :=
  ⟨fun hcap hdq => store_event_cap_zero s sid m hdq hcap,
   fun hcap => store_event_total s sid m hcap⟩

theorem C9_witness :
    store_event (initStore 0 0) "S" "a" =
      Except.error "IndexError: deque index out of range" ∧
    ∃ s', store_event (initStore 1 5) "S" "a" = Except.ok (5, s') :=
  ⟨(C9_cap_guard (initStore 0 0) "S" "a").1 rfl rfl,
   (C9_cap_guard (initStore 1 5) "S" "a").2 (by decide)⟩

/-- Claim C3: in every reachable state of the event store (capacity at
least 1), an event id is a key of the event index iff an entry
carrying that id is currently present in a stream's deque; by the
invariant it is then its own stream's deque. -/
theorem C3_index_iff (cap : Nat) (s : InMemoryEventStore) (eid : EventId)
    (hcap : 1 ≤ cap) (hreach : Reachable cap s) :
    (dlookup s.event_index eid).isSome ↔
      ∃ p ∈ s.streams, ∃ e ∈ p.2, e.event_id = eid := by
  obtain ⟨hks, hik, hse, hsd, hsnd, hcomp⟩ := reachable_WF cap s hreach
  constructor
  · intro hsome
    cases hl : dlookup s.event_index eid with
    | none =>
      rw [hl] at hsome
      simp at hsome
    | some q =>
      have hqin : (eid, q) ∈ s.event_index := dlookup_mem _ _ _ hl
      obtain ⟨hq1, hq2⟩ := hsnd (eid, q) hqin
      obtain ⟨dq, hdq, hmem⟩ := mem_dequeOf s q.stream_id q hq2
      exact ⟨(q.stream_id, dq), dlookup_mem _ _ _ hdq, q, hmem, hq1.symm⟩
  · rintro ⟨p, hp, e, he, heid⟩
    have hcl := hcomp p hp e he
    rw [heid] at hcl
    rw [hcl]
    rfl

/-- Concrete reachable store with one stored event, for the C3 witness. -/
def oneStore : InMemoryEventStore :=
  { max_events_per_stream := 1,
    streams := [("S", [{ event_id := 0, stream_id := "S", message := "a" }])],
    event_index := [(0, { event_id := 0, stream_id := "S", message := "a" })],
    nextId := 1 }

theorem C3_witness :
    (dlookup oneStore.event_index 0).isSome ↔
      ∃ p ∈ oneStore.streams, ∃ e ∈ p.2, e.event_id = 0 :=
  C3_index_iff 1 oneStore 0 (by decide)
    (Reachable.store (initStore 1 0) "S" "a" 0 oneStore (Reachable.init 0) rfl)

/-- Concrete store with two streams, for C4 and C10. -/
def twoStreamStore : InMemoryEventStore :=
  { max_events_per_stream := 100,
    streams := [("A", [{ event_id := 0, stream_id := "A", message := "mA" }]),
                ("B", [{ event_id := 1, stream_id := "B", message := "mB" }])],
    event_index := [(0, { event_id := 0, stream_id := "A", message := "mA" }),
                    (1, { event_id := 1, stream_id := "B", message := "mB" })],
    nextId := 2 }

/-- Claim C4, counterexample to the "different stream" clause: event 1
belongs to stream "B"; a caller who assumed stream "A" and calls
`replay_events_after 1` does not get `None` — the call returns
`some "B"` (and replays B's suffix), so "returns not-found for an id
from a different stream than assumed" is false as stated. -/
theorem C4_counterexample :
    (replay_events_after twoStreamStore 1).2.1 = some "B" ∧
    (replay_events_after twoStreamStore 1).2.1 ≠ none :=
  ⟨rfl, by decide⟩

/-- Claim C4 (amended): `replay_events_after` never raises (it is a
total function): an id that was never stored or has been evicted
yields `None` with no deliveries; a found id replays only entries of
the id's own stream and returns that stream's id — it never delivers
another stream's events, and a caller that assumed a different stream
must detect the mismatch from the returned stream id. -/
theorem C4_replay_total (s : InMemoryEventStore) (eid : EventId) :
    match dlookup s.event_index eid with
    | none => replay_events_after s eid = (s, none, [])
    | some le =>
        (replay_events_after s eid).2.1 = some le.stream_id ∧
        (∀ d ∈ (replay_events_after s eid).2.2,
          ∃ ev ∈ dequeOf s le.stream_id, d = (ev.message, ev.event_id)) := by
  cases hl : dlookup s.event_index eid with
  | none => simp [replay_events_after, hl]
  | some le =>
    constructor
    · simp [replay_events_after, hl]
    · intro d hd
      have hd' : d ∈ replayScan eid ((dlookup s.streams le.stream_id).getD []) false := by
        simpa [replay_events_after, hl] using hd
      obtain ⟨ev, hev, hdev⟩ := replayScan_sub eid _ false d hd'
      refine ⟨ev, ?_, hdev⟩
      rw [dequeOf]
      exact hev

theorem C4_witness :
    (replay_events_after twoStreamStore 1).2.1 = some "B" ∧
    replay_events_after twoStreamStore 99 = (twoStreamStore, none, []) :=
  ⟨(C4_replay_total twoStreamStore 1).1, C4_replay_total twoStreamStore 99⟩

/-- Claim C5: a request whose session header is present but names no
registered session gets the HTTP 400 response, registers nothing, and
performs no session-creation or Supervisor step at all (its trace is
just reading the header and responding). -/
theorem C5_unknown_session (server_instances : List (SessionId × Transport))
    (task_group : Bool) (freshId h : SessionId)
    (hmiss : dlookup server_instances h = none) :
    handle_streamable_http server_instances task_group freshId (some h) =
      (RouterOutcome.badRequest, server_instances,
        [RouterAction.readHeader, RouterAction.respondBadRequest]) ∧
    (∀ a ∈ (handle_streamable_http server_instances task_group freshId (some h)).2.2,
      a = RouterAction.readHeader ∨ a = RouterAction.respondBadRequest) := by
  have heq : handle_streamable_http server_instances task_group freshId (some h) =
      (RouterOutcome.badRequest, server_instances,
        [RouterAction.readHeader, RouterAction.respondBadRequest]) := by
    simp [handle_streamable_http, hmiss]
  refine ⟨heq, ?_⟩
  rw [heq]
  intro a ha
  simpa using ha

theorem C5_witness :
    handle_streamable_http [] true 0 (some 7) =
      (RouterOutcome.badRequest, [],
        [RouterAction.readHeader, RouterAction.respondBadRequest]) ∧
    (∀ a ∈ (handle_streamable_http [] true 0 (some 7)).2.2,
      a = RouterAction.readHeader ∨ a = RouterAction.respondBadRequest) :=
  C5_unknown_session [] true 0 7 rfl

/-- Claim C6, counterexample to the lock clause: for a session-creating
request the trace of `handle_streamable_http` executes the caller's own
`handle_request` while the session-creation lock is held (the `async
with` block spans transport creation, task start and request handling),
so "the lock is never held while a caller's own HTTP request handling
is in progress" is false. -/
theorem C6_counterexample :
    lockHeldDuring RouterAction.handleCreatedRequest
      (handle_streamable_http [] true 0 none).2.2 = true ∧
    lockHeldDuring RouterAction.handleCreatedRequest
      (handle_streamable_http [] true 0 none).2.2 ≠ false :=
  ⟨rfl, by decide⟩

/-- Claim C6 (amended): `n` session-creating requests, serialized by
the creation lock, produce `n` sessions with pairwise distinct ids,
all registered and none lost; but the lock is held not only across
the check-then-insert: it is also held across the creating caller's
own HTTP request handling. -/
theorem C6_concurrent_creations (server_instances : List (SessionId × Transport))
    (nextUuid n : Nat) (freshId : SessionId)
    (hfresh : ∀ k ∈ dkeys server_instances, k < nextUuid) :
    (runCreations server_instances true nextUuid n).1 = List.range' nextUuid n ∧
    (runCreations server_instances true nextUuid n).1.Nodup ∧
    (runCreations server_instances true nextUuid n).2 =
      server_instances ++ (List.range' nextUuid n).map
        (fun i => (i, ({ mcp_session_id := i } : Transport))) ∧
    (∀ sid ∈ (runCreations server_instances true nextUuid n).1,
      dlookup (runCreations server_instances true nextUuid n).2 sid =
        some { mcp_session_id := sid }) ∧
    lockHeldDuring RouterAction.handleCreatedRequest
      (handle_streamable_http server_instances true freshId none).2.2 = true := by
  have hspec := runCreations_spec n server_instances nextUuid hfresh
  refine ⟨by rw [hspec], ?_, by rw [hspec], ?_, rfl⟩
  · rw [hspec]
    exact List.nodup_range' _ _ 1 Nat.one_pos
  · intro sid hsid
    rw [hspec] at hsid ⊢
    obtain ⟨hge, hlt⟩ := List.mem_range'_1.1 hsid
    have hnot : sid ∉ dkeys server_instances := by
      intro hc
      exact absurd (hfresh sid hc) (Nat.not_lt.2 hge)
    rw [dlookup_append_right _ _ _ hnot]
    refine dlookup_of_mem_nodup _ _ _ ?_ ?_
    · rw [dkeys_map_pair]
      exact List.nodup_range' _ _ 1 Nat.one_pos
    · exact List.mem_map.2 ⟨sid, hsid, rfl⟩

theorem C6_witness :
    (runCreations [] true 0 3).1 = [0, 1, 2] ∧
    (runCreations [] true 0 3).1.Nodup ∧
    (runCreations [] true 0 3).2 =
      [(0, { mcp_session_id := 0 }), (1, { mcp_session_id := 1 }),
       (2, { mcp_session_id := 2 })] ∧
    lockHeldDuring RouterAction.handleCreatedRequest
      (handle_streamable_http [] true 9 none).2.2 = true := by
  have h := C6_concurrent_creations [] 0 3 9 (by simp)
  exact ⟨h.1, h.2.1, h.2.2.1, h.2.2.2.2⟩

/-- Claim C7: a session-creating request handled while `task_group` is
`None` (before startup or after shutdown) raises `RuntimeError`: the
outcome is the propagated exception, not an HTTP response, and the
request is never handled nor a session task started — it is surfaced
immediately, not treated as a recoverable per-request condition.  (As
in the source, the transport has already been registered when the
check fires.) -/
theorem C7_supervisor_missing (server_instances : List (SessionId × Transport))
    (freshId : SessionId) :
    (handle_streamable_http server_instances false freshId none).1 =
      RouterOutcome.runtimeError ∧
    RouterAction.raiseRuntimeError ∈
      (handle_streamable_http server_instances false freshId none).2.2 ∧
    RouterAction.startSessionTask ∉
      (handle_streamable_http server_instances false freshId none).2.2 ∧
    RouterAction.handleCreatedRequest ∉
      (handle_streamable_http server_instances false freshId none).2.2 ∧
    (handle_streamable_http server_instances false freshId none).1 ≠
      RouterOutcome.badRequest := by
  have htr : (handle_streamable_http server_instances false freshId none).2.2 =
      [RouterAction.readHeader, RouterAction.acquireLock, RouterAction.genSessionId,
       RouterAction.mkTransport, RouterAction.registerTransport,
       RouterAction.checkTaskGroup, RouterAction.raiseRuntimeError,
       RouterAction.releaseLock] := rfl
  have h1 : (handle_streamable_http server_instances false freshId none).1 =
      RouterOutcome.runtimeError := rfl
  refine ⟨h1, ?_, ?_, ?_, ?_⟩
  · rw [htr]
    decide
  · rw [htr]
    decide
  · rw [htr]
    decide
  · rw [h1]
    decide

/-- Claim C10: `store_event(A, m)` affects only stream `A`: every
other stream's deque binding is unchanged, the index entries of events
belonging to other streams are exactly preserved (in both directions),
and the returned id maps in the index to an entry with stream `A` and
message `m` stored as the last element of `A`'s deque. -/
theorem C10_frame (s : InMemoryEventStore) (A : StreamId) (m : JSONRPCMessage)
    (eid : EventId) (s' : InMemoryEventStore) (hWF : WF s)
    (hstep : store_event s A m = Except.ok (eid, s')) :
    eid = s.nextId ∧
    (∀ B, B ≠ A → dlookup s'.streams B = dlookup s.streams B) ∧
    (∀ i e, dlookup s.event_index i = some e → e.stream_id ≠ A →
      dlookup s'.event_index i = some e) ∧
    (∀ i e, dlookup s'.event_index i = some e → e.stream_id ≠ A →
      dlookup s.event_index i = some e) ∧
    dlookup s'.event_index eid =
      some { event_id := eid, stream_id := A, message := m } ∧
    (dequeOf s' A).getLast? =
      some { event_id := eid, stream_id := A, message := m } := by
  have hkeylt : ∀ i e, dlookup s.event_index i = some e → i < s.nextId :=
    fun i e hl => WF_index_key_lt s hWF (i, e) (dlookup_mem _ _ _ hl)
  obtain ⟨hks, hik, hse, hsd, hsnd, hcomp⟩ := hWF
  have hnid_ne : ∀ i e, dlookup s.event_index i = some e → s.nextId ≠ i := by
    intro i e hl hcx
    have hx := hkeylt i e hl
    rw [← hcx] at hx
    exact absurd hx (lt_irrefl _)
  cases hdq : dlookup s.streams A with
  | none =>
    by_cases hcap : s.max_events_per_stream = 0
    · rw [store_event_cap_zero s A m hdq hcap] at hstep
      simp at hstep
    · rw [store_event_new_stream s A m hdq hcap] at hstep
      injection hstep with h
      injection h with h1 h2
      subst h1
      subst h2
      refine ⟨rfl, ?_, ?_, ?_, dlookup_dinsert_self _ _ _, ?_⟩
      · intro B hB
        show dlookup (dinsert (dinsert s.streams A []) A _) B = dlookup s.streams B
        rw [dinsert_dinsert]
        exact dlookup_dinsert_ne _ _ _ _ (fun hc => hB hc.symm)
      · intro i e hl hsB
        show dlookup (dinsert s.event_index s.nextId _) i = some e
        rw [dlookup_dinsert_ne _ _ _ _ (hnid_ne i e hl)]
        exact hl
      · intro i e hl hsB
        have hl' : dlookup (dinsert s.event_index s.nextId
            { event_id := s.nextId, stream_id := A, message := m }) i = some e := hl
        by_cases hi : s.nextId = i
        · exfalso
          rw [← hi, dlookup_dinsert_self] at hl'
          injection hl' with hl''
          rw [← hl''] at hsB
          exact hsB rfl
        · rw [dlookup_dinsert_ne _ _ _ _ hi] at hl'
          exact hl'
      · show ((dlookup (dinsert (dinsert s.streams A []) A
          [{ event_id := s.nextId, stream_id := A, message := m }]) A).getD []).getLast? = _
        rw [dlookup_dinsert_self]
        simp
  | some dq =>
    by_cases hlen : dq.length = s.max_events_per_stream
    · cases dq with
      | nil =>
        have hcap0 : s.max_events_per_stream = 0 := by simpa using hlen.symm
        rw [store_event_cap_zero_empty s A m hdq hcap0] at hstep
        simp at hstep
      | cons e0 rest =>
        rw [store_event_full s A m e0 rest hdq hlen] at hstep
        injection hstep with h
        injection h with h1 h2
        subst h1
        subst h2
        have hmemdq : ((A, e0 :: rest) : StreamId × List EventEntry) ∈ s.streams :=
          dlookup_mem _ _ _ hdq
        have he0 : dlookup s.event_index e0.event_id = some e0 :=
          hcomp _ hmemdq e0 (List.mem_cons_self _ _)
        refine ⟨rfl, ?_, ?_, ?_, dlookup_dinsert_self _ _ _, ?_⟩
        · intro B hB
          show dlookup (dinsert s.streams A _) B = dlookup s.streams B
          exact dlookup_dinsert_ne _ _ _ _ (fun hc => hB hc.symm)
        · intro i e hl hsB
          have hneo : e0.event_id ≠ i := by
            intro hcx
            rw [hcx] at he0
            rw [hl] at he0
            injection he0 with he0'
            have hsA : e0.stream_id = A := (hse _ hmemdq e0 (List.mem_cons_self _ _)).1
            refine hsB ?_
            rw [he0']
            exact hsA
          show dlookup (dinsert (derase s.event_index e0.event_id) s.nextId _) i = some e
          rw [dlookup_dinsert_ne _ _ _ _ (hnid_ne i e hl)]
          rw [dlookup_derase_ne _ _ _ hneo]
          exact hl
        · intro i e hl hsB
          have hl' : dlookup (dinsert (derase s.event_index e0.event_id) s.nextId
              { event_id := s.nextId, stream_id := A, message := m }) i = some e := hl
          by_cases hi : s.nextId = i
          · exfalso
            rw [← hi, dlookup_dinsert_self] at hl'
            injection hl' with hl''
            rw [← hl''] at hsB
            exact hsB rfl
          · rw [dlookup_dinsert_ne _ _ _ _ hi] at hl'
            by_cases ho : e0.event_id = i
            · exfalso
              rw [← ho, dlookup_derase_self _ _ hik] at hl'
              exact Option.noConfusion hl'
            · rw [dlookup_derase_ne _ _ _ ho] at hl'
              exact hl'
        · show ((dlookup (dinsert s.streams A
            (rest ++ [{ event_id := s.nextId, stream_id := A, message := m }])) A).getD
              []).getLast? = _
          rw [dlookup_dinsert_self]
          rw [Option.getD_some]
          exact List.getLast?_concat _
    · rw [store_event_not_full s A m dq hdq hlen] at hstep
      injection hstep with h
      injection h with h1 h2
      subst h1
      subst h2
      refine ⟨rfl, ?_, ?_, ?_, dlookup_dinsert_self _ _ _, ?_⟩
      · intro B hB
        show dlookup (dinsert s.streams A _) B = dlookup s.streams B
        exact dlookup_dinsert_ne _ _ _ _ (fun hc => hB hc.symm)
      · intro i e hl hsB
        show dlookup (dinsert s.event_index s.nextId _) i = some e
        rw [dlookup_dinsert_ne _ _ _ _ (hnid_ne i e hl)]
        exact hl
      · intro i e hl hsB
        have hl' : dlookup (dinsert s.event_index s.nextId
            { event_id := s.nextId, stream_id := A, message := m }) i = some e := hl
        by_cases hi : s.nextId = i
        · exfalso
          rw [← hi, dlookup_dinsert_self] at hl'
          injection hl' with hl''
          rw [← hl''] at hsB
          exact hsB rfl
        · rw [dlookup_dinsert_ne _ _ _ _ hi] at hl'
          exact hl'
      · show ((dlookup (dinsert s.streams A
          (dq ++ [{ event_id := s.nextId, stream_id := A, message := m }])) A).getD
            []).getLast? = _
        rw [dlookup_dinsert_self]
        rw [Option.getD_some]
        exact List.getLast?_concat _

/-- The store after `store_event twoStreamStore "A" "x"`. -/
def twoStreamStoreAfter : InMemoryEventStore :=
  { max_events_per_stream := 100,
    streams := [("A", [{ event_id := 0, stream_id := "A", message := "mA" },
                       { event_id := 2, stream_id := "A", message := "x" }]),
                ("B", [{ event_id := 1, stream_id := "B", message := "mB" }])],
    event_index := [(0, { event_id := 0, stream_id := "A", message := "mA" }),
                    (1, { event_id := 1, stream_id := "B", message := "mB" }),
                    (2, { event_id := 2, stream_id := "A", message := "x" })],
    nextId := 3 }

theorem C10_witness :
    store_event twoStreamStore "A" "x" = Except.ok (2, twoStreamStoreAfter) ∧
    dlookup twoStreamStoreAfter.streams "B" = dlookup twoStreamStore.streams "B" ∧
    dlookup twoStreamStoreAfter.event_index 1 =
      some { event_id := 1, stream_id := "B", message := "mB" } ∧
    (dequeOf twoStreamStoreAfter "A").getLast? =
      some { event_id := 2, stream_id := "A", message := "x" } := by
  have h := C10_frame twoStreamStore "A" "x" 2 twoStreamStoreAfter (by decide) rfl
  exact ⟨rfl, h.2.1 "B" (by decide),
    h.2.2.1 1 { event_id := 1, stream_id := "B", message := "mB" } rfl (by decide),
    h.2.2.2.2.2⟩
